import Mathlib

/-!
# Verification of the readme-generator-for-helm parser (`src/lib/parser.js`)

This file gives a shallow embedding in Lean 4 of the two passes implemented in
`src/lib/parser.js`:

* `parseMetadataComments` — the comment-tag scanner (a stateful line-by-line
  scan with a one-line lookahead), and
* `createValuesObject` — the value flattener over the parsed YAML tree.

The YAML deserializer (`yaml`), the dotted-path flattener (`dot-object`) and
the structural lookup (`lodash.get`) are external collaborators of the
repository; they are embedded by their documented interface: a parsed YAML
document is a `Value` tree, `dot-object`'s flattening is `dotted` (dotted keys,
bracket notation for array indices), and `lodash.get` is `lget` (direct
structural lookup along the dotted path).  JavaScript regular-expression
matching of the tag patterns built in `parseMetadataComments` is embedded as
deterministic string matchers over the configuration strings, treating the
configured comment format and tag keywords as literal strings (the default
configuration uses `##`, `@param`, … which contain no pattern metacharacters).

Machine integers do not occur: the only numbers are array indices and
indentation counts (`Nat`) and YAML numeric scalars (`Int`).
-/

/-! ## Character-level helpers

`isSpace` models the JavaScript `\s` character class for the characters that
can occur on a single line (lines are produced by splitting on `\r?\n`). -/

def isSpace (c : Char) : Bool :=
  c = ' ' || c = '\t' || c = '\n' || c = '\r' || c = '\x0b' || c = '\x0c'

def dropWs (l : List Char) : List Char := l.dropWhile isSpace

/-- JavaScript `String.prototype.trim` on a list of characters. -/
def trimL (l : List Char) : List Char :=
  ((l.dropWhile isSpace).reverse.dropWhile isSpace).reverse

/-- `pre` is a literal prefix of `l`: returns the remainder after `pre`. -/
def stripPref : List Char → List Char → Option (List Char)
  | l, [] => some l
  | [], _ :: _ => none
  | c :: t, p :: ps => if c = p then stripPref t ps else none

/-- Boolean prefix test. -/
def prefB : List Char → List Char → Bool
  | [], _ => true
  | _ :: _, [] => false
  | p :: ps, c :: t => p = c && prefB ps t

/-- Split on `,` (JavaScript `String.prototype.split(',')`): always returns at
least one (possibly empty) piece. -/
def splitComma : List Char → List (List Char)
  | [] => [[]]
  | ',' :: t => [] :: splitComma t
  | c :: t =>
    match splitComma t with
    | [] => [[c]]
    | p :: ps => (c :: p) :: ps

/-- Split on `\r?\n` (the line splitting performed on the input file). -/
def splitLinesL : List Char → List (List Char)
  | [] => [[]]
  | '\r' :: '\n' :: t => [] :: splitLinesL t
  | '\n' :: t => [] :: splitLinesL t
  | c :: t =>
    match splitLinesL t with
    | [] => [[c]]
    | p :: ps => (c :: p) :: ps

def splitLines (s : String) : List String :=
  (splitLinesL s.data).map String.mk

/-- Decimal digits of a natural number (structural in a fuel argument so that
concrete instances reduce in the kernel). -/
def natDigitsF : Nat → Nat → List Char
  | 0, _ => []
  | f + 1, n => if n < 10 then [Nat.digitChar n] else natDigitsF f (n / 10) ++ [Nat.digitChar (n % 10)]

def natStr (n : Nat) : List Char := natDigitsF (n + 1) n

def digitsToNatAux : Nat → List Char → Nat
  | acc, [] => acc
  | acc, c :: t => digitsToNatAux (acc * 10 + (c.toNat - '0'.toNat)) t

def digitsToNat (l : List Char) : Nat := digitsToNatAux 0 l

/-! ## The YAML value tree

`Value` is the tree produced by the external YAML parser: scalars, sequences
and mappings.  Numeric scalars are embedded as `Int`. -/

inductive Value where
  | vnull
  | vstr (s : String)
  | vnum (n : Int)
  | vbool (b : Bool)
  | varr (xs : List Value)
  | vobj (fs : List (String × Value))

/-- JavaScript `typeof` on a parsed YAML value (`typeof null` is `"object"`,
`typeof []` is `"object"`). -/
def typeOf : Value → String
  | .vnull => "object"
  | .vstr _ => "string"
  | .vnum _ => "number"
  | .vbool _ => "boolean"
  | .varr _ => "object"
  | .vobj _ => "object"

/-- `typeof` of a lookup result; a failed lookup is JavaScript `undefined`. -/
def typeOfOpt : Option Value → String
  | none => "undefined"
  | some w => typeOf w

def isStrVal : Value → Bool
  | .vstr _ => true
  | _ => false

/-! ## Dotted-path flattening (the external `dot-object` collaborator)

`dot.dot` flattens the value tree to dotted-path keys, with array indices in
bracket notation (`a.b[0].c`).  We first compute structured addresses
(`Seg`/`Addr`) and then render them, which is what the recursive string
concatenation in `dot-object` produces. -/

inductive Seg where
  | key (k : String)
  | idx (i : Nat)

/-- Rendering of a non-leading address segment sequence: keys are preceded by
`.`, indices are bracketed. -/
def contStrL : List Seg → List Char
  | [] => []
  | .key k :: t => '.' :: (k.data ++ contStrL t)
  | .idx i :: t => '[' :: (natStr i ++ ']' :: contStrL t)

/-- Rendering of a full address: the leading key is bare. -/
def addrStrL : List Seg → List Char
  | [] => []
  | .key k :: t => k.data ++ contStrL t
  | .idx i :: t => '[' :: (natStr i ++ ']' :: contStrL t)

mutual

/-- Structured flattening of a value: the list of (address, leaf) pairs, in
source order.  Empty mappings and sequences are leaves (as in `dot-object`). -/
def flatAddrs : Value → List (List Seg × Value)
  | .vobj (f :: fs) => flatAddrsFields (f :: fs)
  | .varr (x :: xs) => flatAddrsElems 0 (x :: xs)
  | v => [([], v)]

def flatAddrsFields : List (String × Value) → List (List Seg × Value)
  | [] => []
  | (k, w) :: t =>
    (flatAddrs w).map (fun aw => (Seg.key k :: aw.1, aw.2)) ++ flatAddrsFields t

def flatAddrsElems : Nat → List Value → List (List Seg × Value)
  | _, [] => []
  | i, w :: t =>
    (flatAddrs w).map (fun aw => (Seg.idx i :: aw.1, aw.2)) ++ flatAddrsElems (i + 1) t

end

/-- `dot.dot`: the flattened dotted-path → value pairs of the tree (the loop in
`createValuesObject` iterates over the keys of this object). -/
def dotted (v : Value) : List (String × Value) :=
  (flatAddrs v).map (fun aw => (String.mk (addrStrL aw.1), aw.2))

/-! ## Structural lookup (the external `lodash.get` collaborator) -/

/-- A character that continues a key segment of a dotted path. -/
def keyChar (c : Char) : Bool := c ≠ '.' && c ≠ '['

mutual

/-- `_.get(value, path)`: direct structural lookup along a dotted path with
bracketed indices. -/
def lget : Value → List Char → Option Value
  | v, [] => some v
  | .vobj fs, c :: p =>
    let seg := (c :: p).takeWhile keyChar
    let rest :=
      match (c :: p).drop seg.length with
      | '.' :: r => r
      | r => r
    lgetObj fs seg rest
  | .varr xs, '[' :: p =>
    let ds := p.takeWhile Char.isDigit
    match p.drop ds.length with
    | ']' :: r =>
      let r' :=
        match r with
        | '.' :: r2 => r2
        | r2 => r2
      lgetArr xs (digitsToNat ds) r'
    | _ => none
  | _, _ => none

def lgetObj : List (String × Value) → List Char → List Char → Option Value
  | [], _, _ => none
  | (k, w) :: t, seg, rest => if k.data = seg then lget w rest else lgetObj t seg rest

def lgetArr : List Value → Nat → List Char → Option Value
  | [], _, _ => none
  | w :: _, 0, rest => lget w rest
  | _ :: t, n + 1, rest => lgetArr t n rest

end

mutual

/-- Modelled from the spec: `utils.getArrayPath` (in `lib/utils.js`, which is
not part of the sources under review) composed with `lodash.get`.  The spec
describes it as "a literal-key-matching lookup strategy that does not use the
separator to disambiguate segments": at a mapping, each actual key is matched
literally against the front of the remaining dotted path, so keys containing
`.` or `/` are found even though the dotted rendering is ambiguous. -/
def literalGet : Value → List Char → Option Value
  | v, [] => some v
  | .vobj fs, c :: p => litObj fs (c :: p)
  | .varr xs, '[' :: p =>
    let ds := p.takeWhile Char.isDigit
    match p.drop ds.length with
    | ']' :: r =>
      let r' :=
        match r with
        | '.' :: r2 => r2
        | r2 => r2
      litArr xs (digitsToNat ds) r'
    | _ => none
  | _, _ => none

def litObj : List (String × Value) → List Char → Option Value
  | [], _ => none
  | (k, w) :: t, p =>
    if p = k.data then some w
    else if prefB (k.data ++ ['.']) p then literalGet w (p.drop (k.data.length + 1))
    else if prefB (k.data ++ ['[']) p then literalGet w (p.drop k.data.length)
    else litObj t p

def litArr : List Value → Nat → List Char → Option Value
  | [], _, _ => none
  | w :: _, 0, rest => literalGet w rest
  | _ :: t, n + 1, rest => litArr t n rest

end

/-! ## The Parameter / Section / Metadata data holders

`lib/parameter.js`, `lib/section.js` and `lib/metadata.js` are plain data
holders (spec §3).  A fresh JavaScript `Parameter` carries only its name;
every other field is unassigned, embedded here as `Option`/default values.
`Metadata.addParameter`, `Metadata.addSection`, `Section.addParameter` and
`Section.addDescriptionLine` append to the corresponding list (the spec:
"ordered sequence …, insertion order = order of appearance"). -/

structure Parameter where
  name : String
  description : Option String := none
  modifiers : List String := []
  sectionName : Option String := none
  skip : Bool := false
  extra : Bool := false
  type : Option String := none
  value : Option Value := none
  schema : Option Bool := none

structure Section where
  name : String
  description : List String := []
  parameters : List Parameter := []

structure Metadata where
  sections : List Section := []
  parameters : List Parameter := []

/-! ## The value flattener: `createValuesObject` (parser.js lines 292–354) -/

/-- Everything before the first `[` of a dotted path
(`utils.getArrayPrefix`, i.e. `valuePath.split('[')[0]`). -/
def bracketPreL (l : List Char) : List Char := l.takeWhile (fun c => c ≠ '[')

def hasBrack (l : List Char) : Bool := l.any (fun c => c = '[')

/-- The body of the `for (let valuePath in dottedFormatProperties)` loop in
`createValuesObject`, producing the `Parameter` that the iteration for
`valuePath` would push (the duplicate-name check is applied by `cvoStep`).

* lines 299–309: direct lookup, falling back to the literal-key lookup with
  `renderInSchema = false`;
* line 310: `type` is computed before the array collapse and the nil mapping;
* lines 314–328: plain string-array collapse (the source calls `.forEach` on
  the prefix lookup result, which throws if it is not an array; that branch is
  unreachable for paths produced by the flattening, and is embedded as "no
  collapse");
* lines 331–333: `null` becomes the literal string `'nil'`;
* lines 336–340: arrays are re-typed `'array'`;
* lines 344–348: a fresh `Parameter` has no value, so `if (!param.value)`
  always assigns. -/
def emit (v : Value) (vp : String) : Parameter :=
  let direct := lget v vp.data
  let value1 := match direct with
    | some w => some w
    | none => literalGet v vp.data
  let renderInSchema := match direct with
    | some _ => true
    | none => false
  let type1 := typeOfOpt value1
  let collapsed : Option Value × String :=
    if hasBrack vp.data then
      match literalGet v (bracketPreL vp.data) with
      | some (.varr es) =>
        if es.all isStrVal then (some (.varr es), String.mk (bracketPreL vp.data))
        else (value1, vp)
      | _ => (value1, vp)
    else (value1, vp)
  let value3 := match collapsed.1 with
    | some .vnull => some (.vstr "nil")
    | w => w
  let type2 := match value3 with
    | some (.varr _) => "array"
    | _ => type1
  { name := collapsed.2, value := value3, type := some type2, schema := some renderInSchema }

/-- One loop iteration: push unless a parameter with the same (possibly
collapsed) name is already present (line 343). -/
def cvoStep (v : Value) (acc : List Parameter) (vp : String) : List Parameter :=
  let p := emit v vp
  if acc.any (fun q => q.name = p.name) then acc else acc ++ [p]

/-- `createValuesObject`, embedded over the parsed YAML tree. -/
def createValuesObject (v : Value) : List Parameter :=
  ((dotted v).map Prod.fst).foldl (cvoStep v) []

/-! ## The comment-tag scanner: `parseMetadataComments` (parser.js lines 70–285)

The configuration supplies the comment-prefix and the tag keywords
(`config.comments.format`, `config.tags.param`, `config.tags.section`,
`config.tags.skip`, `config.tags.extra`, `config.tags.descriptionStart`,
`config.tags.descriptionEnd`); they are embedded as literal strings.
`section`, `skip` and the like are renamed with a `Tag` suffix where Lean
reserves the word. -/

structure Config where
  commentFmt : String
  paramTag : String
  sectionTag : String
  skipTag : String
  extraTag : String
  descStartTag : String
  descEndTag : String

/-- The default configuration of the tool (`config.json`):
`##` comments with `@param`-style tags. -/
def defaultConfig : Config :=
  { commentFmt := "##", paramTag := "@param", sectionTag := "@section",
    skipTag := "@skip", extraTag := "@extra",
    descStartTag := "@descriptionStart", descEndTag := "@descriptionEnd" }

/-- Result of the structural-line heuristic `parseYamlLine` (lines 21–41).
On a non-match only `isYamlKey = false` is meaningful (the source returns an
object without the other fields). -/
structure YamlInfo where
  isYamlKey : Bool
  indent : Nat := 0
  key : String := ""
  value : String := ""
  hasValue : Bool := false

/-- The first `:` of a list, at any position: `l = before ++ ':' :: after`
with no `:` in `before`. -/
def splitColon : List Char → Option (List Char × List Char)
  | [] => none
  | ':' :: t => some ([], t)
  | c :: t =>
    match splitColon t with
    | some (b, a) => some (c :: b, a)
    | none => none

/-- `parseYamlLine` (lines 21–41): matches `^(\s*)([^#\s][^:]*?):\s*(.*)$`.
The leading `(\s*)` takes all leading whitespace (`indent`); the first
non-whitespace character must not be `#` (which also makes the separate
`isComment` check of line 29 always false on a match); the lazy `[^:]*?`
means the terminating `:` is the first colon after that character. -/
def parseYamlLine (line : String) : YamlInfo :=
  let cs := line.data
  let indent := (cs.takeWhile isSpace).length
  match cs.dropWhile isSpace with
  | [] => { isYamlKey := false }
  | c :: t =>
    if c = '#' then { isYamlKey := false }
    else
      match splitColon t with
      | none => { isYamlKey := false }
      | some (before, after) =>
        let key := String.mk (trimL (c :: before))
        let value := String.mk (trimL after)
        { isYamlKey := true, indent := indent, key := key, value := value,
          hasValue := value ≠ "" && value ≠ "{}" && value ≠ "[]" }

/-! ### Tag matchers

Each regex of lines 77–83 is `^\s*FMT\s*TAG …` for a literal comment format
`FMT` and keyword `TAG`.  Whitespace runs are deterministic here, so greedy
matching with backtracking reduces to sequential literal matching. -/

/-- Match `^\s*FMT\s*TAG\s*(.*)$` and return the trailing text (used for the
section, description-start and description-end regexes). -/
def matchSimpleTag (fmt tag line : String) : Option String :=
  match stripPref (dropWs line.data) fmt.data with
  | none => none
  | some r1 =>
    match stripPref (dropWs r1) tag.data with
    | none => none
    | some r2 => some (String.mk (dropWs r2))

/-- Match `^\s*FMT\s?(.*)` — any comment line; the captured group starts after
at most one whitespace character (the description-content regex, line 80). -/
def matchContent (fmt line : String) : Option String :=
  match stripPref (dropWs line.data) fmt.data with
  | none => none
  | some r =>
    match r with
    | c :: t => if isSpace c then some (String.mk t) else some (String.mk r)
    | [] => some ""

/-- The largest index `r ≥ 1` of `)` in `run`: the greedy group `([^\s]+)`
followed by `\)` keeps everything up to the last `)` of the non-whitespace
run (and the group must be nonempty). -/
def lastParenIdx (run : List Char) : Option Nat :=
  match run.reverse.findIdx? (fun c => c = ')') with
  | none => none
  | some j =>
    let r := run.length - 1 - j
    if 1 ≤ r then some r else none

/-- Match the optional explicit path `(?:\(([^\s]+)\))?`: a parenthesis
followed by a nonempty run of non-whitespace characters up to a closing `)`.
Returns the path and the remainder, or `none` when the group matches empty. -/
def parseParen : List Char → Option (String × List Char)
  | '(' :: t =>
    let run := t.takeWhile (fun c => !isSpace c)
    match lastParenIdx run with
    | some r => some (String.mk (run.take r), t.drop (r + 1))
    | none => none
  | _ => none

/-- Match the optional modifier list `(\[.*?\])?`: lazy up to the first `]`.
Returns the bracket content and the remainder. -/
def parseBrack : List Char → Option (String × List Char)
  | '[' :: t =>
    let con := t.takeWhile (fun c => c ≠ ']')
    match t.drop con.length with
    | ']' :: r => some (String.mk con, r)
    | _ => none
  | _ => none

/-- `modifiers.split(',').filter((m) => m).map((m) => m.trim())`
(lines 116/122): empty pieces are dropped before trimming. -/
def modsOf (content : String) : List String :=
  ((splitComma content.data).filter (fun m => m ≠ [])).map (fun m => String.mk (trimL m))

/-- Match the param/extra regex
`^\s*FMT\s*TAG\s*(?:\(([^\s]+)\))?\s*(\[.*?\])?\s*(.*)$` (lines 77/83):
returns (optional explicit path, modifier list, description). -/
def matchParam (fmt tag line : String) : Option (Option String × List String × String) :=
  match stripPref (dropWs line.data) fmt.data with
  | none => none
  | some r1 =>
    match stripPref (dropWs r1) tag.data with
    | none => none
    | some r2 =>
      let r3 := dropWs r2
      let pr := match parseParen r3 with
        | some (pth, r) => (some pth, r)
        | none => ((none : Option String), r3)
      let r5 := dropWs pr.2
      let mr := match parseBrack r5 with
        | some (m, r) => (modsOf m, r)
        | none => (([] : List String), r5)
      some (pr.1, mr.1, String.mk (dropWs mr.2))

/-- Match the skip regex `^\s*FMT\s*TAG\s*(?:\(([^\s]+)\))?\s*(.*)$`
(line 82): returns (optional explicit path, description). -/
def matchSkip (fmt tag line : String) : Option (Option String × String) :=
  match stripPref (dropWs line.data) fmt.data with
  | none => none
  | some r1 =>
    match stripPref (dropWs r1) tag.data with
    | none => none
    | some r2 =>
      let r3 := dropWs r2
      let pr := match parseParen r3 with
        | some (pth, r) => (some pth, r)
        | none => ((none : Option String), r3)
      some (pr.1, String.mk (dropWs pr.2))

/-! ### Scanner state and per-line step -/

/-- The mutable locals of `parseMetadataComments` (lines 86–92) together with
the `Metadata` being built.  `currentSection` is the index (into `sections`)
of the JavaScript object the `currentSection` variable points to.  The path
and indent stacks keep their top at the head (JavaScript pushes/pops at the
end of the array). -/
structure ScanState where
  sections : List Section := []
  params : List Parameter := []
  currentSection : Option Nat := none
  descriptionParsing : Bool := false
  pathStack : List String := []
  indentStack : List Nat := []
  pendingParam : Option Parameter := none

def initState : ScanState := {}

/-- `pathStack.join('.')` (line 47): the stacks are stored top-first here, so
the bottom-to-top join reverses first. -/
def joinDots : List String → String
  | [] => ""
  | [x] => x
  | x :: t => x ++ "." ++ joinDots t

def buildCurrentPath (ps : List String) : String := joinDots ps.reverse

/-- The popping loop of `updatePathStack` (lines 55–58): pop both stacks while
the top indent is `≥` the incoming indent. -/
def popStacks : List String → List Nat → Nat → List String × List Nat
  | ps, [], _ => (ps, [])
  | ps, i :: it, ind => if ind ≤ i then popStacks ps.tail it ind else (ps, i :: it)

/-- `updatePathStack` (lines 53–63). -/
def updatePathStack (ps : List String) (is : List Nat) (ind : Nat) (key : String) :
    List String × List Nat :=
  let pi := popStacks ps is ind
  (key :: pi.1, ind :: pi.2)

/-- `List.modify` at an index (used to mirror mutation of the section object
both `Metadata.sections` and `currentSection` reference). -/
def modifyIdx : List Section → Nat → (Section → Section) → List Section
  | [], _, _ => []
  | s :: t, 0, f => f s :: t
  | s :: t, n + 1, f => s :: modifyIdx t n f

/-- Attach a parameter to the current section (if any) and append it to the
metadata parameter list (lines 103–107 / 124–128 / …). -/
def pushParam (st : ScanState) (p : Parameter) : ScanState :=
  match st.currentSection with
  | some i =>
    match st.sections[i]? with
    | some sec =>
      let p := { p with sectionName := some sec.name }
      { st with
        sections := modifyIdx st.sections i (fun s => { s with parameters := s.parameters ++ [p] }),
        params := st.params ++ [p] }
    | none => { st with params := st.params ++ [p] }
  | none => { st with params := st.params ++ [p] }

/-- Append a line to the current section's description
(`currentSection.addDescriptionLine`). -/
def addDescLine (st : ScanState) (txt : String) : ScanState :=
  match st.currentSection with
  | some i =>
    { st with
      sections := modifyIdx st.sections i (fun s => { s with description := s.description ++ [txt] }) }
  | none => st

/-- Lines 96–110: structural tracking and resolution of a pending parameter. -/
def stepYaml (st : ScanState) (line : String) : ScanState :=
  let yi := parseYamlLine line
  if yi.isYamlKey then
    let pi := updatePathStack st.pathStack st.indentStack yi.indent yi.key
    let st := { st with pathStack := pi.1, indentStack := pi.2 }
    match st.pendingParam with
    | some p => { pushParam st { p with name := buildCurrentPath pi.1 } with pendingParam := none }
    | none => st
  else st

/-- Lines 113–156: the param tag.  An explicit path makes a complete
parameter at once; otherwise the parameter becomes pending, resolved
immediately when the one-line lookahead sees a structural line. -/
def stepParam (cfg : Config) (line : String) (next? : Option String) (st : ScanState) :
    ScanState :=
  match matchParam cfg.commentFmt cfg.paramTag line with
  | none => st
  | some (some pth, mods, desc) =>
    pushParam st { name := pth, modifiers := mods, description := some desc }
  | some (none, mods, desc) =>
    let p : Parameter := { name := "", modifiers := mods, description := some desc }
    match next? with
    | some nl =>
      let nyi := parseYamlLine nl
      if nyi.isYamlKey then
        let pi := updatePathStack st.pathStack st.indentStack nyi.indent nyi.key
        { pushParam st { p with name := buildCurrentPath pi.1 } with pendingParam := none }
      else { st with pendingParam := some p }
    | none => { st with pendingParam := some p }

/-- Lines 159–164: the section tag: the new section becomes current. -/
def stepSection (cfg : Config) (line : String) (st : ScanState) : ScanState :=
  match matchSimpleTag cfg.commentFmt cfg.sectionTag line with
  | none => st
  | some nm =>
    { st with sections := st.sections ++ [{ name := nm }],
              currentSection := some st.sections.length }

/-- Lines 167–170: the description-end tag turns capture off. -/
def stepEnd (cfg : Config) (line : String) (st : ScanState) : ScanState :=
  match matchSimpleTag cfg.commentFmt cfg.descEndTag line with
  | none => st
  | some _ =>
    if st.currentSection.isSome && st.descriptionParsing then
      { st with descriptionParsing := false }
    else st

/-- Lines 173–177: while capture is on, any comment line's trailing text is
appended to the current section's description. -/
def stepContent (cfg : Config) (line : String) (st : ScanState) : ScanState :=
  match matchContent cfg.commentFmt line with
  | none => st
  | some txt =>
    if st.currentSection.isSome && st.descriptionParsing then addDescLine st txt
    else st

/-- Lines 180–186: the description-start tag turns capture on; nonempty
trailing text becomes the first description line. -/
def stepStart (cfg : Config) (line : String) (st : ScanState) : ScanState :=
  match matchSimpleTag cfg.commentFmt cfg.descStartTag line with
  | none => st
  | some txt =>
    if st.currentSection.isSome && !st.descriptionParsing then
      { (if txt ≠ "" then addDescLine st txt else st) with descriptionParsing := true }
    else st

/-- Lines 189–231: the skip tag (no modifiers, `skip = true`). -/
def stepSkip (cfg : Config) (line : String) (next? : Option String) (st : ScanState) :
    ScanState :=
  match matchSkip cfg.commentFmt cfg.skipTag line with
  | none => st
  | some (some pth, desc) =>
    pushParam st { name := pth, skip := true, description := some desc }
  | some (none, desc) =>
    let p : Parameter := { name := "", skip := true, description := some desc }
    match next? with
    | some nl =>
      let nyi := parseYamlLine nl
      if nyi.isYamlKey then
        let pi := updatePathStack st.pathStack st.indentStack nyi.indent nyi.key
        { pushParam st { p with name := buildCurrentPath pi.1 } with pendingParam := none }
      else { st with pendingParam := some p }
    | none => { st with pendingParam := some p }

/-- Lines 234–281: the extra tag (`extra = true`, `value = ''`). -/
def stepExtra (cfg : Config) (line : String) (next? : Option String) (st : ScanState) :
    ScanState :=
  match matchParam cfg.commentFmt cfg.extraTag line with
  | none => st
  | some (some pth, mods, desc) =>
    pushParam st { name := pth, modifiers := mods, description := some desc,
                   value := some (.vstr ""), extra := true }
  | some (none, mods, desc) =>
    let p : Parameter := { name := "", modifiers := mods, description := some desc,
                           value := some (.vstr ""), extra := true }
    match next? with
    | some nl =>
      let nyi := parseYamlLine nl
      if nyi.isYamlKey then
        let pi := updatePathStack st.pathStack st.indentStack nyi.indent nyi.key
        { pushParam st { p with name := buildCurrentPath pi.1 } with pendingParam := none }
      else { st with pendingParam := some p }
    | none => { st with pendingParam := some p }

/-- One iteration of the `lines.forEach` body (lines 94–282), in source
order: structural tracking, param, section, description-end,
description-content, description-start, skip, extra. -/
def scanStep (cfg : Config) (st : ScanState) (line : String) (next? : Option String) :
    ScanState :=
  stepExtra cfg line next?
    (stepSkip cfg line next?
      (stepStart cfg line
        (stepContent cfg line
          (stepEnd cfg line
            (stepSection cfg line
              (stepParam cfg line next? (stepYaml st line)))))))

/-- The whole scan: each line sees the next line (if any) as lookahead. -/
def scanAux (cfg : Config) (st : ScanState) : List String → ScanState
  | [] => st
  | l :: rest => scanAux cfg (scanStep cfg st l rest.head?) rest

/-- `parseMetadataComments`, embedded over the file content. -/
def parseMetadataComments (cfg : Config) (content : String) : Metadata :=
  let fin := scanAux cfg initState (splitLines content)
  { sections := fin.sections, parameters := fin.params }

/-! ## Predicates used in the claim statements -/

/-- Forget the pending parameter of a scanner state (the part of the state
that is observable in the returned `Metadata` plus the remaining scan
inputs). -/
def clearP (s : ScanState) : ScanState := { s with pendingParam := none }

/-- The path-tracking invariant (spec §3): stacks of equal length whose
indentation values strictly ascend from the bottom; the stacks are stored
top-first, so ascending-towards-the-top is `Pairwise (· > ·)`. -/
def StacksInv (ps : List String) (is : List Nat) : Prop :=
  ps.length = is.length ∧ is.Pairwise (fun a b => a > b)

/-- A parameter as produced by the scanner: never a `type`, and a `value`
(the empty string) exactly for extra parameters. -/
def docOnly (p : Parameter) : Prop :=
  p.type = none ∧ p.value = (if p.extra then some (.vstr "") else none)

/-- All scanner-visible parameters of a state are documentation-only. -/
def DocState (st : ScanState) : Prop :=
  (∀ p ∈ st.params, docOnly p) ∧
  (∀ s ∈ st.sections, ∀ p ∈ s.parameters, docOnly p) ∧
  (∀ p, st.pendingParam = some p → docOnly p)

/-- A mapping key that round-trips through the dotted rendering: nonempty and
free of the separator characters. -/
def GoodKey (k : String) : Prop :=
  k.data ≠ [] ∧ ∀ c ∈ k.data, c ≠ '.' ∧ c ≠ '[' ∧ c ≠ ']'

/-- A value tree whose mapping keys are `GoodKey` and duplicate-free (the
normal shape of a chart values file). -/
inductive Good : Value → Prop
  | vnull : Good .vnull
  | vstr (s : String) : Good (.vstr s)
  | vnum (n : Int) : Good (.vnum n)
  | vbool (b : Bool) : Good (.vbool b)
  | varr (xs : List Value) : (∀ w ∈ xs, Good w) → Good (.varr xs)
  | vobj (fs : List (String × Value)) : (fs.map Prod.fst).Nodup →
      (∀ kw ∈ fs, GoodKey kw.1) → (∀ kw ∈ fs, Good kw.2) → Good (.vobj fs)

def isKeySeg : Seg → Bool
  | .key _ => true
  | .idx _ => false

/-- An address that addresses through mappings only. -/
def AllKeys (a : List Seg) : Prop := ∀ s ∈ a, isKeySeg s = true

/-- All keys mentioned by an address are `GoodKey`. -/
def GoodAddr (a : List Seg) : Prop := ∀ k, Seg.key k ∈ a → GoodKey k

/-- The name under which the loop iteration for `vp` would emit its
parameter (the collapsed array prefix or `vp` itself). -/
def emitName (v : Value) (vp : String) : String := (emit v vp).name

/-- The parameters appended by the remaining loop iterations, given the names
already present in the accumulator. -/
def emits (v : Value) : List String → List String → List Parameter
  | _, [] => []
  | seen, vp :: rest =>
    let p := emit v vp
    if p.name ∈ seen then emits v seen rest
    else p :: emits v (p.name :: seen) rest

/-- A flattening leaf: a scalar, or an empty mapping or sequence. -/
def isLeaf : Value → Prop
  | .varr xs => xs = []
  | .vobj fs => fs = []
  | _ => True

/-- The null-to-`nil` mapping of lines 331–333, as a value transformer. -/
def nilMap : Value → Value
  | .vnull => .vstr "nil"
  | w => w

/-- The final type tag assigned to a directly-looked-up value: arrays are
re-typed `"array"` (lines 336–340); `null` keeps `typeof null = "object"`
because the type was computed before the nil mapping (line 310). -/
def typeTag : Value → String
  | .varr _ => "array"
  | w => typeOf w

/-- `u` is the subtree of `v` at structured address `b` (the navigation that
`dot-object` and the lookups perform, stated on the tree itself). -/
inductive SubAt : List Seg → Value → Value → Prop
  | refl (v : Value) : SubAt [] v v
  | key {fs : List (String × Value)} {k : String} {w u : Value} {b : List Seg} :
      (k, w) ∈ fs → SubAt b w u → SubAt (Seg.key k :: b) (.vobj fs) u
  | idx {xs : List Value} {i : Nat} {w u : Value} {b : List Seg} :
      xs[i]? = some w → SubAt b w u → SubAt (Seg.idx i :: b) (.varr xs) u

abbrev PendT (f : ScanState → ScanState) : Prop :=
  ∀ (st : ScanState) (q : Option Parameter),
    f { st with pendingParam := q } = { f st with pendingParam := q }

abbrev PendE (f : ScanState → ScanState) : Prop :=
  ∀ (st : ScanState) (q q' : Option Parameter),
    f { st with pendingParam := q } = f { st with pendingParam := q' }

/-- A line carrying a pathless parameter, skip or extra tag (the explicit
path group of the tag regex did not match). -/
def PathlessTag (cfg : Config) (l : String) : Prop :=
  (∃ m d, matchParam cfg.commentFmt cfg.paramTag l = some (none, m, d)) ∨
  (∃ d, matchSkip cfg.commentFmt cfg.skipTag l = some (none, d)) ∨
  (∃ m d, matchParam cfg.commentFmt cfg.extraTag l = some (none, m, d))

/-- A state transformer that leaves both stacks unchanged. -/
abbrev StacksEq (f : ScanState → ScanState) : Prop :=
  ∀ (st : ScanState), (f st).pathStack = st.pathStack ∧ (f st).indentStack = st.indentStack

/-- A state transformer that preserves every section's description, the
current-section pointer and the capture flag. -/
abbrev DescEq (f : ScanState → ScanState) : Prop :=
  ∀ (st : ScanState),
    (f st).sections.map Section.description = st.sections.map Section.description ∧
    (f st).currentSection = st.currentSection ∧
    (f st).descriptionParsing = st.descriptionParsing

/-! # Theorems -/

/-- C1 (amended): on the two-line input with the default configuration, the
scanner produces exactly one Parameter named `replicaCount` — the name is
auto-detected from the following YAML line, because without parentheses the
tag has no explicit path — whose description is the whole trailing text
`"replicaCount Number of replicas"`; and the flattener produces exactly one
Parameter named `replicaCount` of type `"number"` with value `3`. -/
theorem claim_C1 :
    (parseMetadataComments defaultConfig
        "## @param replicaCount Number of replicas\nreplicaCount: 3").parameters =
      [{ name := "replicaCount", description := some "replicaCount Number of replicas" }] ∧
    (parseMetadataComments defaultConfig
        "## @param replicaCount Number of replicas\nreplicaCount: 3").sections = [] ∧
    createValuesObject (.vobj [("replicaCount", .vnum 3)]) =
      [{ name := "replicaCount", value := some (.vnum 3), type := some "number",
         schema := some true }] :=
  ⟨rfl, rfl, rfl⟩

/-- C1 is false as stated: the single scanner parameter of that input does
not have description `"Number of replicas"` (the token `replicaCount` is part
of the free text, since the explicit-path group of the param regex requires
parentheses). -/
theorem claim_C1_counterexample :
    ¬ (∀ p ∈ (parseMetadataComments defaultConfig
          "## @param replicaCount Number of replicas\nreplicaCount: 3").parameters,
        p.description = some "Number of replicas") := by
  intro h
  have hm : ({ name := "replicaCount",
               description := some "replicaCount Number of replicas" } : Parameter) ∈
      (parseMetadataComments defaultConfig
          "## @param replicaCount Number of replicas\nreplicaCount: 3").parameters := by
    rw [show (parseMetadataComments defaultConfig
          "## @param replicaCount Number of replicas\nreplicaCount: 3").parameters =
        [{ name := "replicaCount",
           description := some "replicaCount Number of replicas" }] from rfl]
    exact List.mem_singleton_self _
  have hd := h _ hm
  have : ("replicaCount Number of replicas" : String) = "Number of replicas" :=
    Option.some.inj hd
  exact absurd this (by decide)

/-- C7 (amended): the structural-line classifier is independent of the
configuration; the comment marker is hard-coded as `#` (the `[^#\s]`
character class, and the redundant `isComment` check).  For every comment
format that starts with `#` — such as the default `##` — a line whose first
non-whitespace characters begin with that format is classified
non-structural, whatever the rest of the line looks like. -/
theorem claim_C7 (fmt line : String) (hf : fmt.data.head? = some '#')
    (hp : prefB fmt.data (dropWs line.data) = true) :
    (parseYamlLine line).isYamlKey = false := by
  obtain ⟨t, ht⟩ : ∃ t, line.data.dropWhile isSpace = '#' :: t := by
    cases hfd : fmt.data with
    | nil => rw [hfd] at hf; exact absurd hf (by simp)
    | cons c cs =>
      rw [hfd] at hf hp
      have hc : c = '#' := by simpa using hf
      cases hl : line.data.dropWhile isSpace with
      | nil =>
        rw [show dropWs line.data = [] from hl] at hp
        exact absurd hp (by simp [prefB])
      | cons d t =>
        rw [show dropWs line.data = d :: t from hl] at hp
        simp only [prefB, Bool.and_eq_true, decide_eq_true_eq] at hp
        exact ⟨t, by rw [← hp.1, hc]⟩
  simp only [parseYamlLine]
  rw [ht]
  simp

/-- C7 is false as stated: with comment format `//`, the line `// a: b`
begins with the configured marker yet is classified as a structural YAML
line. -/
theorem claim_C7_counterexample :
    ¬ (∀ (fmt line : String), prefB fmt.data (dropWs line.data) = true →
        (parseYamlLine line).isYamlKey = false) := by
  intro h
  have h1 := h "//" "// a: b" (by decide)
  have h2 : (parseYamlLine "// a: b").isYamlKey = true := rfl
  rw [h1] at h2
  exact Bool.noConfusion h2

/-- Witness for C7 at the default format `##`. -/
theorem claim_C7_witness : (parseYamlLine "## foo: bar").isYamlKey = false :=
  claim_C7 "##" "## foo: bar" rfl rfl

/-! ## Pending-parameter (ir)relevance

`pendingParam` is read only in the structural branch (lines 101–109); every
other part of an iteration either leaves it alone or overwrites it.  We
classify each sub-step as *pending-transparent* (commutes with setting the
pending slot) or *pending-erasing* (its result does not depend on the
incoming pending slot). -/

theorem pendT_comp {f g : ScanState → ScanState} (hf : PendT f) (hg : PendT g) :
    PendT (fun s => g (f s)) :=
  fun st q => (congrArg g (hf st q)).trans (hg (f st) q)

theorem pendE_comp_left {f g : ScanState → ScanState} (hf : PendE f) :
    PendE (fun s => g (f s)) :=
  fun st q q' => congrArg g (hf st q q')

theorem pendE_comp_right {f g : ScanState → ScanState} (hf : PendT f) (hg : PendE g) :
    PendE (fun s => g (f s)) := by
  intro st q q'
  show g (f { st with pendingParam := q }) = g (f { st with pendingParam := q' })
  simp only [hf st q, hf st q', hg (f st) q q']

theorem pend_comp {f g : ScanState → ScanState}
    (hf : PendT f ∨ PendE f) (hg : PendT g ∨ PendE g) :
    PendT (fun s => g (f s)) ∨ PendE (fun s => g (f s)) := by
  rcases hf with hf | hf
  · rcases hg with hg | hg
    · exact Or.inl (pendT_comp hf hg)
    · exact Or.inr (pendE_comp_right hf hg)
  · exact Or.inr (pendE_comp_left hf)

theorem pushParam_pend (st : ScanState) (q : Option Parameter) (p : Parameter) :
    pushParam { st with pendingParam := q } p = { pushParam st p with pendingParam := q } := by
  unfold pushParam
  cases hc : st.currentSection with
  | none => simp [hc]
  | some i =>
    cases hg : st.sections[i]? with
    | none => simp [hc, hg]
    | some sec => simp [hc, hg]

theorem addDescLine_pend (st : ScanState) (q : Option Parameter) (txt : String) :
    addDescLine { st with pendingParam := q } txt = { addDescLine st txt with pendingParam := q } := by
  unfold addDescLine
  cases hc : st.currentSection with
  | none => simp [hc]
  | some i => simp [hc]

theorem stepYaml_nonstruct (st : ScanState) (l : String)
    (h : (parseYamlLine l).isYamlKey = false) : stepYaml st l = st := by
  unfold stepYaml
  simp [h]

theorem pendT_stepSection (cfg : Config) (l : String) :
    PendT (fun s => stepSection cfg l s) := by
  intro st q
  show stepSection cfg l { st with pendingParam := q } =
    { stepSection cfg l st with pendingParam := q }
  unfold stepSection
  cases h : matchSimpleTag cfg.commentFmt cfg.sectionTag l <;> simp [h]

theorem pendT_stepEnd (cfg : Config) (l : String) :
    PendT (fun s => stepEnd cfg l s) := by
  intro st q
  show stepEnd cfg l { st with pendingParam := q } =
    { stepEnd cfg l st with pendingParam := q }
  unfold stepEnd
  cases h : matchSimpleTag cfg.commentFmt cfg.descEndTag l with
  | none => simp [h]
  | some txt =>
    simp only [h]
    cases hc : (st.currentSection.isSome && st.descriptionParsing) <;> simp [hc]

theorem pendT_stepContent (cfg : Config) (l : String) :
    PendT (fun s => stepContent cfg l s) := by
  intro st q
  show stepContent cfg l { st with pendingParam := q } =
    { stepContent cfg l st with pendingParam := q }
  unfold stepContent
  cases h : matchContent cfg.commentFmt l with
  | none => simp [h]
  | some txt =>
    simp only [h]
    cases hc : (st.currentSection.isSome && st.descriptionParsing) <;>
      simp [hc, addDescLine_pend]

theorem pendT_stepStart (cfg : Config) (l : String) :
    PendT (fun s => stepStart cfg l s) := by
  intro st q
  show stepStart cfg l { st with pendingParam := q } =
    { stepStart cfg l st with pendingParam := q }
  unfold stepStart
  cases h : matchSimpleTag cfg.commentFmt cfg.descStartTag l with
  | none => simp [h]
  | some txt =>
    simp only [h]
    by_cases ht : txt = "" <;>
      cases hc : (st.currentSection.isSome && !st.descriptionParsing) <;>
        simp [hc, ht, addDescLine_pend]

theorem pend_stepParam (cfg : Config) (l : String) (n : Option String) :
    PendT (fun s => stepParam cfg l n s) ∨ PendE (fun s => stepParam cfg l n s) := by
  cases h : matchParam cfg.commentFmt cfg.paramTag l with
  | none =>
    refine Or.inl ?_
    intro st q
    show stepParam cfg l n { st with pendingParam := q } =
      { stepParam cfg l n st with pendingParam := q }
    unfold stepParam
    simp [h]
  | some r =>
    obtain ⟨pth, mods, desc⟩ := r
    cases pth with
    | some pth =>
      refine Or.inl ?_
      intro st q
      show stepParam cfg l n { st with pendingParam := q } =
        { stepParam cfg l n st with pendingParam := q }
      unfold stepParam
      simp only [h]
      exact pushParam_pend st q _
    | none =>
      refine Or.inr ?_
      intro st q q'
      show stepParam cfg l n { st with pendingParam := q } =
        stepParam cfg l n { st with pendingParam := q' }
      unfold stepParam
      simp only [h]
      cases n with
      | none => rfl
      | some nl =>
        cases hy : (parseYamlLine nl).isYamlKey <;>
          simp [hy, pushParam_pend]

theorem pend_stepSkip (cfg : Config) (l : String) (n : Option String) :
    PendT (fun s => stepSkip cfg l n s) ∨ PendE (fun s => stepSkip cfg l n s) := by
  cases h : matchSkip cfg.commentFmt cfg.skipTag l with
  | none =>
    refine Or.inl ?_
    intro st q
    show stepSkip cfg l n { st with pendingParam := q } =
      { stepSkip cfg l n st with pendingParam := q }
    unfold stepSkip
    simp [h]
  | some r =>
    obtain ⟨pth, desc⟩ := r
    cases pth with
    | some pth =>
      refine Or.inl ?_
      intro st q
      show stepSkip cfg l n { st with pendingParam := q } =
        { stepSkip cfg l n st with pendingParam := q }
      unfold stepSkip
      simp only [h]
      exact pushParam_pend st q _
    | none =>
      refine Or.inr ?_
      intro st q q'
      show stepSkip cfg l n { st with pendingParam := q } =
        stepSkip cfg l n { st with pendingParam := q' }
      unfold stepSkip
      simp only [h]
      cases n with
      | none => rfl
      | some nl =>
        cases hy : (parseYamlLine nl).isYamlKey <;>
          simp [hy, pushParam_pend]

theorem pend_stepExtra (cfg : Config) (l : String) (n : Option String) :
    PendT (fun s => stepExtra cfg l n s) ∨ PendE (fun s => stepExtra cfg l n s) := by
  cases h : matchParam cfg.commentFmt cfg.extraTag l with
  | none =>
    refine Or.inl ?_
    intro st q
    show stepExtra cfg l n { st with pendingParam := q } =
      { stepExtra cfg l n st with pendingParam := q }
    unfold stepExtra
    simp [h]
  | some r =>
    obtain ⟨pth, mods, desc⟩ := r
    cases pth with
    | some pth =>
      refine Or.inl ?_
      intro st q
      show stepExtra cfg l n { st with pendingParam := q } =
        { stepExtra cfg l n st with pendingParam := q }
      unfold stepExtra
      simp only [h]
      exact pushParam_pend st q _
    | none =>
      refine Or.inr ?_
      intro st q q'
      show stepExtra cfg l n { st with pendingParam := q } =
        stepExtra cfg l n { st with pendingParam := q' }
      unfold stepExtra
      simp only [h]
      cases n with
      | none => rfl
      | some nl =>
        cases hy : (parseYamlLine nl).isYamlKey <;>
          simp [hy, pushParam_pend]

theorem pendE_comp_any {f g : ScanState → ScanState}
    (hf : PendT f ∨ PendE f) (hg : PendE g) : PendE (fun s => g (f s)) := by
  rcases hf with hf | hf
  · exact pendE_comp_right hf hg
  · exact pendE_comp_left hf

theorem pendT_stepYaml_nonstruct (l : String) (h : (parseYamlLine l).isYamlKey = false) :
    PendT (fun s => stepYaml s l) := by
  intro st q
  simp only [stepYaml_nonstruct _ _ h]

theorem scanStep_pend (cfg : Config) (l : String) (n : Option String)
    (h : (parseYamlLine l).isYamlKey = false) :
    PendT (fun s => scanStep cfg s l n) ∨ PendE (fun s => scanStep cfg s l n) := by
  have h2 := pend_comp (Or.inl (pendT_stepYaml_nonstruct l h)) (pend_stepParam cfg l n)
  have h3 := pend_comp h2 (Or.inl (pendT_stepSection cfg l))
  have h4 := pend_comp h3 (Or.inl (pendT_stepEnd cfg l))
  have h5 := pend_comp h4 (Or.inl (pendT_stepContent cfg l))
  have h6 := pend_comp h5 (Or.inl (pendT_stepStart cfg l))
  have h7 := pend_comp h6 (pend_stepSkip cfg l n)
  have h8 := pend_comp h7 (pend_stepExtra cfg l n)
  exact h8

theorem scanStep_clearP (cfg : Config) (l : String) (n : Option String)
    (h : (parseYamlLine l).isYamlKey = false) (st : ScanState) (q q' : Option Parameter) :
    clearP (scanStep cfg { st with pendingParam := q } l n) =
      clearP (scanStep cfg { st with pendingParam := q' } l n) := by
  rcases scanStep_pend cfg l n h with ht | he
  · have h1 := ht st q
    have h2 := ht st q'
    rw [show scanStep cfg { st with pendingParam := q } l n =
          { scanStep cfg st l n with pendingParam := q } from h1,
        show scanStep cfg { st with pendingParam := q' } l n =
          { scanStep cfg st l n with pendingParam := q' } from h2]
    rfl
  · exact congrArg clearP (he st q q')

theorem scanAux_clearP (cfg : Config) (rest : List String)
    (h : ∀ l ∈ rest, (parseYamlLine l).isYamlKey = false) :
    ∀ (s1 s2 : ScanState), clearP s1 = clearP s2 →
      clearP (scanAux cfg s1 rest) = clearP (scanAux cfg s2 rest) := by
  induction rest with
  | nil => intro s1 s2 hcl; exact hcl
  | cons l rest ih =>
    intro s1 s2 hcl
    have hl : (parseYamlLine l).isYamlKey = false := h l (List.mem_cons_self _ _)
    have hrest : ∀ l' ∈ rest, (parseYamlLine l').isYamlKey = false :=
      fun l' hl' => h l' (List.mem_cons_of_mem _ hl')
    have hs2 : s2 = { clearP s2 with pendingParam := s2.pendingParam } := rfl
    rw [← hcl] at hs2
    have step : clearP (scanStep cfg s1 l rest.head?) = clearP (scanStep cfg s2 l rest.head?) := by
      conv_lhs => rw [show s1 = { clearP s1 with pendingParam := s1.pendingParam } from rfl]
      conv_rhs => rw [hs2]
      exact scanStep_clearP cfg l rest.head? hl (clearP s1) s1.pendingParam s2.pendingParam
    exact ih hrest _ _ step

/-- C5: a pending parameter that is never resolved is silently dropped.
First conjunct (the general statement): if every line remaining in the scan is
non-structural, the observable output — `Metadata.parameters` and the section
list including each section's parameters — is the same whether or not a
pending parameter is in the slot; no error is raised (the scan is total).
Remaining conjuncts (the spec's scenario): the single-line input
`## @param image.tag Image tag` yields a Metadata with no parameters and no
sections, the tag having produced only a pending parameter (with the whole
trailing text as description) that is never resolved. -/
theorem claim_C5 :
    (∀ (cfg : Config) (st : ScanState) (pend : Parameter) (rest : List String),
        (∀ l ∈ rest, (parseYamlLine l).isYamlKey = false) →
        (scanAux cfg { st with pendingParam := some pend } rest).params =
            (scanAux cfg { st with pendingParam := none } rest).params ∧
          (scanAux cfg { st with pendingParam := some pend } rest).sections =
            (scanAux cfg { st with pendingParam := none } rest).sections) ∧
    (parseMetadataComments defaultConfig "## @param image.tag Image tag").parameters = [] ∧
    (parseMetadataComments defaultConfig "## @param image.tag Image tag").sections = [] ∧
    (scanAux defaultConfig initState (splitLines "## @param image.tag Image tag")).pendingParam =
      some { name := "", description := some "image.tag Image tag" } := by
  refine ⟨?_, rfl, rfl, rfl⟩
  intro cfg st pend rest h
  have key := scanAux_clearP cfg rest h
    { st with pendingParam := some pend } { st with pendingParam := none } rfl
  simp only [clearP, ScanState.mk.injEq, and_true] at key
  exact ⟨key.2.1, key.1⟩

/-- Witness for C5's general conjunct on a concrete non-structural remainder. -/
theorem claim_C5_witness :
    (scanAux defaultConfig { initState with pendingParam := some { name := "p" } }
        ["## some comment"]).params =
      (scanAux defaultConfig { initState with pendingParam := none } ["## some comment"]).params :=
  (claim_C5.1 defaultConfig initState { name := "p" } ["## some comment"]
    (by decide)).1

theorem pendE_stepParam {cfg : Config} {l : String} (n : Option String)
    {m : List String} {d : String}
    (hm : matchParam cfg.commentFmt cfg.paramTag l = some (none, m, d)) :
    PendE (fun s => stepParam cfg l n s) := by
  intro st q q'
  show stepParam cfg l n { st with pendingParam := q } =
    stepParam cfg l n { st with pendingParam := q' }
  unfold stepParam
  simp only [hm]
  cases n with
  | none => rfl
  | some nl =>
    cases hy : (parseYamlLine nl).isYamlKey <;> simp [hy, pushParam_pend]

theorem pendE_stepSkip {cfg : Config} {l : String} (n : Option String)
    {d : String}
    (hm : matchSkip cfg.commentFmt cfg.skipTag l = some (none, d)) :
    PendE (fun s => stepSkip cfg l n s) := by
  intro st q q'
  show stepSkip cfg l n { st with pendingParam := q } =
    stepSkip cfg l n { st with pendingParam := q' }
  unfold stepSkip
  simp only [hm]
  cases n with
  | none => rfl
  | some nl =>
    cases hy : (parseYamlLine nl).isYamlKey <;> simp [hy, pushParam_pend]

theorem pendE_stepExtra {cfg : Config} {l : String} (n : Option String)
    {m : List String} {d : String}
    (hm : matchParam cfg.commentFmt cfg.extraTag l = some (none, m, d)) :
    PendE (fun s => stepExtra cfg l n s) := by
  intro st q q'
  show stepExtra cfg l n { st with pendingParam := q } =
    stepExtra cfg l n { st with pendingParam := q' }
  unfold stepExtra
  simp only [hm]
  cases n with
  | none => rfl
  | some nl =>
    cases hy : (parseYamlLine nl).isYamlKey <;> simp [hy, pushParam_pend]

theorem scanStep_pendE_of_pathless (cfg : Config) (l : String) (n : Option String)
    (h1 : (parseYamlLine l).isYamlKey = false) (h2 : PathlessTag cfg l) :
    PendE (fun s => scanStep cfg s l n) := by
  have hy := pendT_stepYaml_nonstruct l h1
  rcases h2 with ⟨m, d, hm⟩ | ⟨d, hm⟩ | ⟨m, d, hm⟩
  · have e2 : PendE (fun s => stepParam cfg l n (stepYaml s l)) :=
      pendE_comp_right hy (pendE_stepParam n hm)
    exact pendE_comp_left (pendE_comp_left (pendE_comp_left (pendE_comp_left
      (pendE_comp_left (pendE_comp_left e2)))))
  · have h2p := pend_comp (Or.inl hy) (pend_stepParam cfg l n)
    have h3 := pend_comp h2p (Or.inl (pendT_stepSection cfg l))
    have h4 := pend_comp h3 (Or.inl (pendT_stepEnd cfg l))
    have h5 := pend_comp h4 (Or.inl (pendT_stepContent cfg l))
    have h6 := pend_comp h5 (Or.inl (pendT_stepStart cfg l))
    have e7 := pendE_comp_any h6 (pendE_stepSkip n hm)
    exact pendE_comp_left e7
  · have h2p := pend_comp (Or.inl hy) (pend_stepParam cfg l n)
    have h3 := pend_comp h2p (Or.inl (pendT_stepSection cfg l))
    have h4 := pend_comp h3 (Or.inl (pendT_stepEnd cfg l))
    have h5 := pend_comp h4 (Or.inl (pendT_stepContent cfg l))
    have h6 := pend_comp h5 (Or.inl (pendT_stepStart cfg l))
    have h7 := pend_comp h6 (pend_stepSkip cfg l n)
    exact pendE_comp_any h7 (pendE_stepExtra n hm)

/-- C9: the scanner holds at most one pending parameter.  When a pathless
parameter/skip/extra tag is scanned on a non-structural line, the new tag
overwrites the pending slot: the entire remaining scan — hence the returned
Metadata — is identical whether the slot held an earlier pending parameter or
nothing, so the earlier pending parameter is silently absent from the
output. -/
theorem claim_C9 (cfg : Config) (st : ScanState) (pend : Parameter) (l : String)
    (rest : List String)
    (h1 : (parseYamlLine l).isYamlKey = false) (h2 : PathlessTag cfg l) :
    scanAux cfg { st with pendingParam := some pend } (l :: rest) =
      scanAux cfg { st with pendingParam := none } (l :: rest) := by
  show scanAux cfg (scanStep cfg { st with pendingParam := some pend } l rest.head?) rest =
    scanAux cfg (scanStep cfg { st with pendingParam := none } l rest.head?) rest
  congr 1
  exact scanStep_pendE_of_pathless cfg l rest.head? h1 h2 st (some pend) none

/-- Witness for C9: a pathless `@param` line with an earlier pending
parameter in the slot. -/
theorem claim_C9_witness :
    scanAux defaultConfig { initState with pendingParam := some { name := "old" } }
        ["## @param second tag"] =
      scanAux defaultConfig { initState with pendingParam := none } ["## @param second tag"] :=
  claim_C9 defaultConfig initState { name := "old" } "## @param second tag" [] rfl
    (Or.inl ⟨[], "second tag", rfl⟩)

/-! ## The path-tracking stacks (claim C8) -/

theorem popStacks_spec (is : List Nat) : ∀ (ps : List String) (ind : Nat),
    popStacks ps is ind =
      (ps.drop (is.takeWhile (fun i => ind ≤ i)).length,
       is.dropWhile (fun i => ind ≤ i)) := by
  induction is with
  | nil => intro ps ind; simp [popStacks]
  | cons i it ih =>
    intro ps ind
    by_cases hi : ind ≤ i
    · rw [show popStacks ps (i :: it) ind = popStacks ps.tail it ind from by
        simp [popStacks, hi]]
      rw [ih ps.tail ind]
      have h1 : (i :: it).takeWhile (fun j => ind ≤ j) = i :: it.takeWhile (fun j => ind ≤ j) := by
        simp [List.takeWhile_cons, hi]
      have h2 : (i :: it).dropWhile (fun j => ind ≤ j) = it.dropWhile (fun j => ind ≤ j) := by
        simp [List.dropWhile_cons, hi]
      rw [h1, h2, List.length_cons]
      have h3 : ∀ (k : Nat), ps.tail.drop k = ps.drop (k + 1) := by
        intro k
        cases ps <;> simp
      rw [h3]
    · simp only [popStacks, if_neg hi, List.takeWhile_cons, List.dropWhile_cons]
      have hd : (decide (ind ≤ i)) = false := by simpa using hi
      simp [hd]

theorem length_dropWhile_add (is : List Nat) (p : Nat → Bool) :
    (is.takeWhile p).length + (is.dropWhile p).length = is.length := by
  conv_rhs => rw [← List.takeWhile_append_dropWhile (p := p) (l := is)]
  rw [List.length_append]

theorem dropWhile_lt_of_pairwise (ind : Nat) (is : List Nat)
    (h : is.Pairwise (fun a b => a > b)) :
    ∀ x ∈ is.dropWhile (fun i => ind ≤ i), x < ind := by
  induction is with
  | nil => simp
  | cons i it ih =>
    rw [List.pairwise_cons] at h
    by_cases hi : ind ≤ i
    · rw [List.dropWhile_cons, if_pos (by simpa using hi)]
      exact ih h.2
    · rw [List.dropWhile_cons, if_neg (by simpa using hi)]
      intro x hx
      rcases List.mem_cons.mp hx with rfl | hx
      · omega
      · have := h.1 x hx
        omega


theorem pushParam_pathStack (s : ScanState) (p : Parameter) :
    (pushParam s p).pathStack = s.pathStack := by
  unfold pushParam
  cases hc : s.currentSection with
  | none => simp
  | some i =>
    cases hg : s.sections[i]? with
    | none => simp [hg]
    | some sec => simp [hg]

theorem pushParam_indentStack (s : ScanState) (p : Parameter) :
    (pushParam s p).indentStack = s.indentStack := by
  unfold pushParam
  cases hc : s.currentSection with
  | none => simp
  | some i =>
    cases hg : s.sections[i]? with
    | none => simp [hg]
    | some sec => simp [hg]

theorem addDescLine_pathStack (s : ScanState) (txt : String) :
    (addDescLine s txt).pathStack = s.pathStack := by
  unfold addDescLine
  cases hc : s.currentSection with
  | none => simp
  | some i => simp

theorem addDescLine_indentStack (s : ScanState) (txt : String) :
    (addDescLine s txt).indentStack = s.indentStack := by
  unfold addDescLine
  cases hc : s.currentSection with
  | none => simp
  | some i => simp

theorem stacksEq_stepParam (cfg : Config) (l : String) (n : Option String) :
    StacksEq (fun s => stepParam cfg l n s) := by
  intro s
  show (stepParam cfg l n s).pathStack = _ ∧ (stepParam cfg l n s).indentStack = _
  unfold stepParam
  cases h : matchParam cfg.commentFmt cfg.paramTag l with
  | none => simp
  | some r =>
    obtain ⟨pth, mods, desc⟩ := r
    cases pth with
    | some pth =>
      simp [pushParam_pathStack, pushParam_indentStack]
    | none =>
      simp only
      cases n with
      | none => simp
      | some nl =>
        cases hy : (parseYamlLine nl).isYamlKey <;>
          simp [hy, pushParam_pathStack, pushParam_indentStack]

theorem stacksEq_stepSkip (cfg : Config) (l : String) (n : Option String) :
    StacksEq (fun s => stepSkip cfg l n s) := by
  intro s
  show (stepSkip cfg l n s).pathStack = _ ∧ (stepSkip cfg l n s).indentStack = _
  unfold stepSkip
  cases h : matchSkip cfg.commentFmt cfg.skipTag l with
  | none => simp
  | some r =>
    obtain ⟨pth, desc⟩ := r
    cases pth with
    | some pth =>
      simp [pushParam_pathStack, pushParam_indentStack]
    | none =>
      simp only
      cases n with
      | none => simp
      | some nl =>
        cases hy : (parseYamlLine nl).isYamlKey <;>
          simp [hy, pushParam_pathStack, pushParam_indentStack]

theorem stacksEq_stepExtra (cfg : Config) (l : String) (n : Option String) :
    StacksEq (fun s => stepExtra cfg l n s) := by
  intro s
  show (stepExtra cfg l n s).pathStack = _ ∧ (stepExtra cfg l n s).indentStack = _
  unfold stepExtra
  cases h : matchParam cfg.commentFmt cfg.extraTag l with
  | none => simp
  | some r =>
    obtain ⟨pth, mods, desc⟩ := r
    cases pth with
    | some pth =>
      simp [pushParam_pathStack, pushParam_indentStack]
    | none =>
      simp only
      cases n with
      | none => simp
      | some nl =>
        cases hy : (parseYamlLine nl).isYamlKey <;>
          simp [hy, pushParam_pathStack, pushParam_indentStack]

theorem stacksEq_stepSection (cfg : Config) (l : String) :
    StacksEq (fun s => stepSection cfg l s) := by
  intro s
  show (stepSection cfg l s).pathStack = _ ∧ (stepSection cfg l s).indentStack = _
  unfold stepSection
  cases h : matchSimpleTag cfg.commentFmt cfg.sectionTag l <;> simp

theorem stacksEq_stepEnd (cfg : Config) (l : String) :
    StacksEq (fun s => stepEnd cfg l s) := by
  intro s
  show (stepEnd cfg l s).pathStack = _ ∧ (stepEnd cfg l s).indentStack = _
  unfold stepEnd
  cases h : matchSimpleTag cfg.commentFmt cfg.descEndTag l with
  | none => simp
  | some txt =>
    simp only
    cases hc : (s.currentSection.isSome && s.descriptionParsing) <;> simp [hc]

theorem stacksEq_stepContent (cfg : Config) (l : String) :
    StacksEq (fun s => stepContent cfg l s) := by
  intro s
  show (stepContent cfg l s).pathStack = _ ∧ (stepContent cfg l s).indentStack = _
  unfold stepContent
  cases h : matchContent cfg.commentFmt l with
  | none => simp
  | some txt =>
    simp only
    cases hc : (s.currentSection.isSome && s.descriptionParsing) <;>
      simp [hc, addDescLine_pathStack, addDescLine_indentStack]

theorem stacksEq_stepStart (cfg : Config) (l : String) :
    StacksEq (fun s => stepStart cfg l s) := by
  intro s
  show (stepStart cfg l s).pathStack = _ ∧ (stepStart cfg l s).indentStack = _
  unfold stepStart
  cases h : matchSimpleTag cfg.commentFmt cfg.descStartTag l with
  | none => simp
  | some txt =>
    simp only
    cases hc : (s.currentSection.isSome && !s.descriptionParsing) <;>
      by_cases ht : txt = "" <;>
        simp [hc, ht, addDescLine_pathStack, addDescLine_indentStack]

theorem stacksEq_comp {f g : ScanState → ScanState} (hf : StacksEq f) (hg : StacksEq g) :
    StacksEq (fun s => g (f s)) := by
  intro s
  exact ⟨(hg (f s)).1.trans (hf s).1, (hg (f s)).2.trans (hf s).2⟩

theorem updatePathStack_all (ps : List String) (is : List Nat) (ind : Nat) (key : String)
    (hinv : StacksInv ps is) :
    StacksInv (updatePathStack ps is ind key).1 (updatePathStack ps is ind key).2 ∧
    (updatePathStack ps is ind key).2 = ind :: is.dropWhile (fun i => ind ≤ i) ∧
    (updatePathStack ps is ind key).1 =
      key :: ps.drop ((is.takeWhile (fun i => ind ≤ i)).length) ∧
    (∀ x ∈ is.takeWhile (fun i => ind ≤ i), ind ≤ x) ∧
    (∀ x ∈ is.dropWhile (fun i => ind ≤ i), x < ind) := by
  obtain ⟨hlen, hpair⟩ := hinv
  have hspec := popStacks_spec is ps ind
  have hkept := dropWhile_lt_of_pairwise ind is hpair
  refine ⟨⟨?_, ?_⟩, ?_, ?_, ?_, hkept⟩
  · show (key :: (popStacks ps is ind).1).length = (ind :: (popStacks ps is ind).2).length
    rw [hspec]
    simp only [List.length_cons, List.length_drop]
    have h1 := length_dropWhile_add is (fun i => ind ≤ i)
    omega
  · show (ind :: (popStacks ps is ind).2).Pairwise (fun a b => a > b)
    rw [hspec]
    refine List.pairwise_cons.mpr ⟨fun x hx => hkept x hx, ?_⟩
    exact hpair.sublist (List.dropWhile_sublist _)
  · show ind :: (popStacks ps is ind).2 = _
    rw [hspec]
  · show key :: (popStacks ps is ind).1 = _
    rw [hspec]
  · intro x hx
    simpa using List.mem_takeWhile_imp hx

theorem stepYaml_inv (st : ScanState) (l : String)
    (h : StacksInv st.pathStack st.indentStack) :
    StacksInv (stepYaml st l).pathStack (stepYaml st l).indentStack := by
  unfold stepYaml
  cases hy : (parseYamlLine l).isYamlKey
  · simp only [hy, Bool.false_eq_true, if_false]
    exact h
  · simp only [hy, if_true]
    cases hp : st.pendingParam with
    | none =>
      simp only [hp]
      exact (updatePathStack_all _ _ _ _ h).1
    | some p =>
      simp only [hp]
      constructor
      · show ({ pushParam _ _ with pendingParam := none }).pathStack.length = _
        simp only [pushParam_pathStack, pushParam_indentStack]
        exact ((updatePathStack_all st.pathStack st.indentStack
          (parseYamlLine l).indent (parseYamlLine l).key h).1).1
      · show (({ pushParam _ _ with pendingParam := none }).indentStack).Pairwise _
        simp only [pushParam_indentStack]
        exact ((updatePathStack_all st.pathStack st.indentStack
          (parseYamlLine l).indent (parseYamlLine l).key h).1).2

theorem scanStep_stacksInv (cfg : Config) (st : ScanState) (l : String) (n : Option String)
    (h : StacksInv st.pathStack st.indentStack) :
    StacksInv (scanStep cfg st l n).pathStack (scanStep cfg st l n).indentStack := by
  have hcomp : StacksEq (fun s =>
      stepExtra cfg l n (stepSkip cfg l n (stepStart cfg l
        (stepContent cfg l (stepEnd cfg l (stepSection cfg l (stepParam cfg l n s))))))) :=
    stacksEq_comp (stacksEq_comp (stacksEq_comp (stacksEq_comp (stacksEq_comp
      (stacksEq_comp (stacksEq_stepParam cfg l n) (stacksEq_stepSection cfg l))
        (stacksEq_stepEnd cfg l)) (stacksEq_stepContent cfg l)) (stacksEq_stepStart cfg l))
      (stacksEq_stepSkip cfg l n)) (stacksEq_stepExtra cfg l n)
  have hy := stepYaml_inv st l h
  have hc := hcomp (stepYaml st l)
  show StacksInv (scanStep cfg st l n).pathStack (scanStep cfg st l n).indentStack
  rw [show (scanStep cfg st l n).pathStack = (stepYaml st l).pathStack from hc.1,
      show (scanStep cfg st l n).indentStack = (stepYaml st l).indentStack from hc.2]
  exact hy

theorem scanAux_stacksInv (cfg : Config) (lines : List String) :
    ∀ (st : ScanState), StacksInv st.pathStack st.indentStack →
      StacksInv (scanAux cfg st lines).pathStack (scanAux cfg st lines).indentStack := by
  induction lines with
  | nil => intro st h; exact h
  | cons l rest ih =>
    intro st h
    exact ih _ (scanStep_stacksInv cfg st l rest.head? h)

/-- C8: `updatePathStack` preserves the path-tracking invariant.  First
conjunct: from stacks of equal length with strictly ascending indents
(stored top-first, so ascending-towards-the-top is `Pairwise (· > ·)`), the
call pops exactly the entries whose indent is `≥` the incoming line's indent
(every popped entry is `≥ ind` and every kept entry is `< ind`), pushes the
new key and indent, and re-establishes the invariant.  Second conjunct: the
invariant holds for the scanner state after processing any prefix of the
input lines (the scan touches the stacks only through `updatePathStack`; the
lookahead works on copies). -/
theorem claim_C8 :
    (∀ (ps : List String) (is : List Nat) (ind : Nat) (key : String),
      StacksInv ps is →
        StacksInv (updatePathStack ps is ind key).1 (updatePathStack ps is ind key).2 ∧
        (updatePathStack ps is ind key).2 = ind :: is.dropWhile (fun i => ind ≤ i) ∧
        (updatePathStack ps is ind key).1 =
          key :: ps.drop ((is.takeWhile (fun i => ind ≤ i)).length) ∧
        (∀ x ∈ is.takeWhile (fun i => ind ≤ i), ind ≤ x) ∧
        (∀ x ∈ is.dropWhile (fun i => ind ≤ i), x < ind)) ∧
    (∀ (cfg : Config) (st : ScanState) (lines : List String),
      StacksInv st.pathStack st.indentStack →
        StacksInv (scanAux cfg st lines).pathStack (scanAux cfg st lines).indentStack) :=
  ⟨updatePathStack_all, fun cfg st lines h => scanAux_stacksInv cfg lines st h⟩

/-- Witness for C8 at concrete stacks and a concrete two-line scan. -/
theorem claim_C8_witness :
    StacksInv (updatePathStack ["b", "a"] [2, 0] 1 "c").1
        (updatePathStack ["b", "a"] [2, 0] 1 "c").2 ∧
    StacksInv (scanAux defaultConfig initState ["a: 1", "  b: 2"]).pathStack
        (scanAux defaultConfig initState ["a: 1", "  b: 2"]).indentStack :=
  ⟨(claim_C8.1 ["b", "a"] [2, 0] 1 "c" ⟨rfl, by simp⟩).1,
   claim_C8.2 defaultConfig initState ["a: 1", "  b: 2"] ⟨rfl, List.Pairwise.nil⟩⟩

/-! ## Field invariants of the two passes (claim C3) -/

theorem docOnly_setName {p : Parameter} (h : docOnly p) (n : String) :
    docOnly { p with name := n } := h

theorem docOnly_setSection {p : Parameter} (h : docOnly p) (s : Option String) :
    docOnly { p with sectionName := s } := h

theorem mem_modifyIdx {x : Section} :
    ∀ (l : List Section) (i : Nat) (f : Section → Section),
      x ∈ modifyIdx l i f → x ∈ l ∨ ∃ y ∈ l, x = f y := by
  intro l
  induction l with
  | nil => intro i f hx; simp [modifyIdx] at hx
  | cons s t ih =>
    intro i f hx
    cases i with
    | zero =>
      rcases List.mem_cons.mp hx with rfl | hx
      · exact Or.inr ⟨s, List.mem_cons_self _ _, rfl⟩
      · exact Or.inl (List.mem_cons_of_mem _ hx)
    | succ i =>
      rcases List.mem_cons.mp hx with rfl | hx
      · exact Or.inl (List.mem_cons_self _ _)
      · rcases ih i f hx with h | ⟨y, hy, rfl⟩
        · exact Or.inl (List.mem_cons_of_mem _ h)
        · exact Or.inr ⟨y, List.mem_cons_of_mem _ hy, rfl⟩

theorem pushParam_doc {st : ScanState} {p : Parameter}
    (h : DocState st) (hp : docOnly p) : DocState (pushParam st p) := by
  obtain ⟨h1, h2, h3⟩ := h
  unfold pushParam
  split
  · split
    · refine ⟨?_, ?_, h3⟩
      · intro q hq
        rcases List.mem_append.mp hq with hq | hq
        · exact h1 q hq
        · rw [List.mem_singleton.mp hq]; exact docOnly_setSection hp _
      · intro s hs q hq
        rcases mem_modifyIdx _ _ _ hs with hs | ⟨y, hy, rfl⟩
        · exact h2 s hs q hq
        · simp only at hq
          rcases List.mem_append.mp hq with hq | hq
          · exact h2 y hy q hq
          · rw [List.mem_singleton.mp hq]; exact docOnly_setSection hp _
    · refine ⟨?_, h2, h3⟩
      intro q hq
      rcases List.mem_append.mp hq with hq | hq
      · exact h1 q hq
      · rw [List.mem_singleton.mp hq]; exact hp
  · refine ⟨?_, h2, h3⟩
    intro q hq
    rcases List.mem_append.mp hq with hq | hq
    · exact h1 q hq
    · rw [List.mem_singleton.mp hq]; exact hp

theorem addDescLine_doc {st : ScanState} (h : DocState st) (txt : String) :
    DocState (addDescLine st txt) := by
  obtain ⟨h1, h2, h3⟩ := h
  unfold addDescLine
  cases hc : st.currentSection with
  | none => exact ⟨h1, h2, h3⟩
  | some i =>
    refine ⟨h1, ?_, h3⟩
    intro s hs q hq
    rcases mem_modifyIdx _ _ _ hs with hs | ⟨y, hy, rfl⟩
    · exact h2 s hs q hq
    · exact h2 y hy q hq

theorem docOnly_fresh (desc : String) (mods : List String) (sk : Bool) :
    docOnly { name := "", description := some desc, modifiers := mods, skip := sk } :=
  ⟨rfl, rfl⟩

theorem docOnly_extra (nm desc : String) (mods : List String) :
    docOnly { name := nm, description := some desc, modifiers := mods,
              value := some (.vstr ""), extra := true } :=
  ⟨rfl, rfl⟩

theorem stepYaml_doc (st : ScanState) (l : String) (h : DocState st) :
    DocState (stepYaml st l) := by
  unfold stepYaml
  cases hy : (parseYamlLine l).isYamlKey
  · simp only [hy, Bool.false_eq_true, if_false]
    exact h
  · simp only [hy, if_true]
    cases hp : st.pendingParam with
    | none =>
      simp only [hp]
      exact ⟨h.1, h.2.1, by simp⟩
    | some p =>
      simp only [hp]
      have hdp : docOnly p := h.2.2 p hp
      have hstep : DocState { st with
          pathStack := (updatePathStack st.pathStack st.indentStack
            (parseYamlLine l).indent (parseYamlLine l).key).1,
          indentStack := (updatePathStack st.pathStack st.indentStack
            (parseYamlLine l).indent (parseYamlLine l).key).2,
          pendingParam := some p } :=
        ⟨h.1, h.2.1, fun q hq => (Option.some.inj hq) ▸ hdp⟩
      have := pushParam_doc hstep (docOnly_setName hdp
        (buildCurrentPath (updatePathStack st.pathStack st.indentStack
          (parseYamlLine l).indent (parseYamlLine l).key).1))
      exact ⟨fun q hq => this.1 q hq, fun s hs q hq => this.2.1 s hs q hq, by simp⟩

theorem stepParam_doc (cfg : Config) (l : String) (n : Option String) (st : ScanState)
    (h : DocState st) : DocState (stepParam cfg l n st) := by
  unfold stepParam
  split
  · exact h
  · exact pushParam_doc h ⟨rfl, rfl⟩
  · rename_i mods desc _heq
    split
    · rename_i nl
      cases hy : (parseYamlLine nl).isYamlKey
      · simp only [hy, Bool.false_eq_true, if_false]
        exact ⟨h.1, h.2.1, fun q hq => (Option.some.inj hq) ▸ ⟨rfl, rfl⟩⟩
      · simp only [hy, if_true]
        exact
          let hh := pushParam_doc h (⟨rfl, rfl⟩ : docOnly
            { name := buildCurrentPath (updatePathStack st.pathStack st.indentStack
                (parseYamlLine nl).indent (parseYamlLine nl).key).1,
              description := some desc, modifiers := mods })
          ⟨fun q hq => hh.1 q hq, fun s hs q hq => hh.2.1 s hs q hq, by simp⟩
    · exact ⟨h.1, h.2.1, fun q hq => (Option.some.inj hq) ▸ ⟨rfl, rfl⟩⟩

theorem stepSkip_doc (cfg : Config) (l : String) (n : Option String) (st : ScanState)
    (h : DocState st) : DocState (stepSkip cfg l n st) := by
  unfold stepSkip
  split
  · exact h
  · exact pushParam_doc h ⟨rfl, rfl⟩
  · rename_i desc _heq
    split
    · rename_i nl
      cases hy : (parseYamlLine nl).isYamlKey
      · simp only [hy, Bool.false_eq_true, if_false]
        exact ⟨h.1, h.2.1, fun q hq => (Option.some.inj hq) ▸ ⟨rfl, rfl⟩⟩
      · simp only [hy, if_true]
        exact
          let hh := pushParam_doc h (⟨rfl, rfl⟩ : docOnly
            { name := buildCurrentPath (updatePathStack st.pathStack st.indentStack
                (parseYamlLine nl).indent (parseYamlLine nl).key).1,
              description := some desc, skip := true })
          ⟨fun q hq => hh.1 q hq, fun s hs q hq => hh.2.1 s hs q hq, by simp⟩
    · exact ⟨h.1, h.2.1, fun q hq => (Option.some.inj hq) ▸ ⟨rfl, rfl⟩⟩

theorem stepExtra_doc (cfg : Config) (l : String) (n : Option String) (st : ScanState)
    (h : DocState st) : DocState (stepExtra cfg l n st) := by
  unfold stepExtra
  split
  · exact h
  · exact pushParam_doc h ⟨rfl, rfl⟩
  · rename_i mods desc _heq
    split
    · rename_i nl
      cases hy : (parseYamlLine nl).isYamlKey
      · simp only [hy, Bool.false_eq_true, if_false]
        exact ⟨h.1, h.2.1, fun q hq => (Option.some.inj hq) ▸ ⟨rfl, rfl⟩⟩
      · simp only [hy, if_true]
        exact
          let hh := pushParam_doc h (⟨rfl, rfl⟩ : docOnly
            { name := buildCurrentPath (updatePathStack st.pathStack st.indentStack
                (parseYamlLine nl).indent (parseYamlLine nl).key).1,
              description := some desc, modifiers := mods,
              value := some (.vstr ""), extra := true })
          ⟨fun q hq => hh.1 q hq, fun s hs q hq => hh.2.1 s hs q hq, by simp⟩
    · exact ⟨h.1, h.2.1, fun q hq => (Option.some.inj hq) ▸ ⟨rfl, rfl⟩⟩

theorem stepSection_doc (cfg : Config) (l : String) (st : ScanState)
    (h : DocState st) : DocState (stepSection cfg l st) := by
  unfold stepSection
  split
  · exact h
  · refine ⟨h.1, ?_, h.2.2⟩
    intro s hs q hq
    rcases List.mem_append.mp hs with hs | hs
    · exact h.2.1 s hs q hq
    · rw [List.mem_singleton.mp hs] at hq
      simp at hq

theorem stepEnd_doc (cfg : Config) (l : String) (st : ScanState)
    (h : DocState st) : DocState (stepEnd cfg l st) := by
  unfold stepEnd
  split
  · exact h
  · split
    · exact ⟨h.1, h.2.1, h.2.2⟩
    · exact h

theorem stepContent_doc (cfg : Config) (l : String) (st : ScanState)
    (h : DocState st) : DocState (stepContent cfg l st) := by
  unfold stepContent
  split
  · exact h
  · split
    · exact addDescLine_doc h _
    · exact h

theorem stepStart_doc (cfg : Config) (l : String) (st : ScanState)
    (h : DocState st) : DocState (stepStart cfg l st) := by
  unfold stepStart
  split
  · exact h
  · split
    · split
      · exact
          let hh := addDescLine_doc h _
          ⟨fun q hq => hh.1 q hq, fun s hs q hq => hh.2.1 s hs q hq,
           fun q hq => hh.2.2 q hq⟩
      · exact ⟨h.1, h.2.1, h.2.2⟩
    · exact h

theorem scanStep_doc (cfg : Config) (st : ScanState) (l : String) (n : Option String)
    (h : DocState st) : DocState (scanStep cfg st l n) :=
  stepExtra_doc cfg l n _
    (stepSkip_doc cfg l n _
      (stepStart_doc cfg l _
        (stepContent_doc cfg l _
          (stepEnd_doc cfg l _
            (stepSection_doc cfg l _
              (stepParam_doc cfg l n _ (stepYaml_doc st l h)))))))

theorem scanAux_doc (cfg : Config) (lines : List String) :
    ∀ (st : ScanState), DocState st → DocState (scanAux cfg st lines) := by
  induction lines with
  | nil => intro st h; exact h
  | cons l rest ih =>
    intro st h
    exact ih _ (scanStep_doc cfg st l rest.head? h)

theorem foldl_cvoStep_mem (v : Value) (paths : List String) :
    ∀ (acc : List Parameter) (p : Parameter), p ∈ paths.foldl (cvoStep v) acc →
      p ∈ acc ∨ ∃ vp, p = emit v vp := by
  induction paths with
  | nil => intro acc p hp; exact Or.inl hp
  | cons vp rest ih =>
    intro acc p hp
    rcases ih _ p hp with hmem | he
    · unfold cvoStep at hmem
      dsimp only at hmem
      split at hmem
      · exact Or.inl hmem
      · rcases List.mem_append.mp hmem with hmem | hmem
        · exact Or.inl hmem
        · exact Or.inr ⟨vp, List.mem_singleton.mp hmem⟩
    · exact Or.inr he

/-- C3 (amended): every Parameter in the Metadata of `parseMetadataComments`
(in the flat list and in every section) has no `type`, and has no `value`
except the extra-tagged parameters, whose `value` is forced to the empty
string (lines 245/258); every Parameter returned by `createValuesObject` has
no `description`, no `modifiers` and no section back-reference. -/
theorem claim_C3 :
    (∀ (cfg : Config) (content : String),
      (∀ p ∈ (parseMetadataComments cfg content).parameters, docOnly p) ∧
      (∀ s ∈ (parseMetadataComments cfg content).sections, ∀ p ∈ s.parameters, docOnly p)) ∧
    (∀ (v : Value), ∀ p ∈ createValuesObject v,
      p.description = none ∧ p.modifiers = [] ∧ p.sectionName = none) := by
  constructor
  · intro cfg content
    have h0 : DocState initState := ⟨by simp [initState], by simp [initState], by simp [initState]⟩
    have hf := scanAux_doc cfg (splitLines content) initState h0
    exact ⟨fun p hp => hf.1 p hp, fun s hs p hp => hf.2.1 s hs p hp⟩
  · intro v p hp
    rcases foldl_cvoStep_mem v _ [] p hp with h | ⟨vp, rfl⟩
    · simp at h
    · exact ⟨rfl, rfl, rfl⟩

/-- C3 is false as stated: an extra-tagged parameter produced by the scanner
carries a value (the empty string). -/
theorem claim_C3_counterexample :
    ¬ (∀ p ∈ (parseMetadataComments defaultConfig "## @extra (a) d").parameters,
        p.type = none ∧ p.value = none) := by
  intro h
  have hm : ({ name := "a", description := some "d", value := some (.vstr ""),
               extra := true } : Parameter) ∈
      (parseMetadataComments defaultConfig "## @extra (a) d").parameters := by
    rw [show (parseMetadataComments defaultConfig "## @extra (a) d").parameters =
        [{ name := "a", description := some "d", value := some (.vstr ""),
           extra := true }] from rfl]
    exact List.mem_singleton_self _
  have hv := (h _ hm).2
  exact Option.noConfusion hv

/-- Witness for C3 on a concrete scanner parameter and a concrete flattener
parameter. -/
theorem claim_C3_witness :
    docOnly ({ name := "a", description := some "d" } : Parameter) ∧
    (({ name := "x", value := some (.vnum 1), type := some "number",
        schema := some true } : Parameter).description = none ∧
      ({ name := "x", value := some (.vnum 1), type := some "number",
         schema := some true } : Parameter).modifiers = [] ∧
      ({ name := "x", value := some (.vnum 1), type := some "number",
         schema := some true } : Parameter).sectionName = none) := by
  constructor
  · refine (claim_C3.1 defaultConfig "## @param (a) d").1
      { name := "a", description := some "d" } ?_
    rw [show (parseMetadataComments defaultConfig "## @param (a) d").parameters =
        [{ name := "a", description := some "d" }] from rfl]
    exact List.mem_singleton_self _
  · refine claim_C3.2 (.vobj [("x", .vnum 1)])
      { name := "x", value := some (.vnum 1), type := some "number", schema := some true } ?_
    rw [show createValuesObject (.vobj [("x", .vnum 1)]) =
        [{ name := "x", value := some (.vnum 1), type := some "number",
           schema := some true }] from rfl]
    exact List.mem_singleton_self _

/-! ## Description capture (claim C10) -/

theorem getElem?_modifyIdx (l : List Section) (j : Nat) (f : Section → Section) :
    ∀ (i : Nat), (modifyIdx l j f)[i]? = if i = j then l[i]?.map f else l[i]? := by
  induction l generalizing j with
  | nil => intro i; simp [modifyIdx]
  | cons s t ih =>
    intro i
    cases j with
    | zero =>
      cases i with
      | zero => simp [modifyIdx]
      | succ i => simp [modifyIdx]
    | succ j =>
      cases i with
      | zero => simp [modifyIdx]
      | succ i => simpa [modifyIdx] using ih j i

theorem map_modifyIdx (l : List Section) (j : Nat) (f : Section → Section)
    {α : Type} (g : Section → α) (h : ∀ s, g (f s) = g s) :
    (modifyIdx l j f).map g = l.map g := by
  induction l generalizing j with
  | nil => simp [modifyIdx]
  | cons s t ih =>
    cases j with
    | zero => simp [modifyIdx, h]
    | succ j => simp [modifyIdx, ih]

theorem pushParam_sections_desc (s : ScanState) (p : Parameter) :
    (pushParam s p).sections.map Section.description = s.sections.map Section.description := by
  unfold pushParam
  split
  · split
    · exact map_modifyIdx _ _ _ _ (fun s => rfl)
    · rfl
  · rfl

theorem pushParam_cur (s : ScanState) (p : Parameter) :
    (pushParam s p).currentSection = s.currentSection := by
  unfold pushParam
  split
  · split
    · rfl
    · rfl
  · rfl

theorem pushParam_dp (s : ScanState) (p : Parameter) :
    (pushParam s p).descriptionParsing = s.descriptionParsing := by
  unfold pushParam
  split
  · split
    · rfl
    · rfl
  · rfl

theorem descEq_stepYaml (l : String) : DescEq (fun s => stepYaml s l) := by
  intro s
  show (stepYaml s l).sections.map Section.description = _ ∧
    (stepYaml s l).currentSection = _ ∧ (stepYaml s l).descriptionParsing = _
  unfold stepYaml
  cases hy : (parseYamlLine l).isYamlKey
  · simp [hy]
  · simp only [hy, if_true]
    cases hp : s.pendingParam
    · simp [hp]
    · simp [hp, pushParam_sections_desc, pushParam_cur, pushParam_dp]

theorem descEq_stepParam (cfg : Config) (l : String) (n : Option String) :
    DescEq (fun s => stepParam cfg l n s) := by
  intro s
  show (stepParam cfg l n s).sections.map Section.description = _ ∧
    (stepParam cfg l n s).currentSection = _ ∧ (stepParam cfg l n s).descriptionParsing = _
  unfold stepParam
  split
  · exact ⟨rfl, rfl, rfl⟩
  · exact ⟨pushParam_sections_desc _ _, pushParam_cur _ _, pushParam_dp _ _⟩
  · split
    · rename_i nl
      cases hy : (parseYamlLine nl).isYamlKey
      · simp [hy]
      · simp [hy, pushParam_sections_desc, pushParam_cur, pushParam_dp]
    · exact ⟨rfl, rfl, rfl⟩

theorem descEq_stepSkip (cfg : Config) (l : String) (n : Option String) :
    DescEq (fun s => stepSkip cfg l n s) := by
  intro s
  show (stepSkip cfg l n s).sections.map Section.description = _ ∧
    (stepSkip cfg l n s).currentSection = _ ∧ (stepSkip cfg l n s).descriptionParsing = _
  unfold stepSkip
  split
  · exact ⟨rfl, rfl, rfl⟩
  · exact ⟨pushParam_sections_desc _ _, pushParam_cur _ _, pushParam_dp _ _⟩
  · split
    · rename_i nl
      cases hy : (parseYamlLine nl).isYamlKey
      · simp [hy]
      · simp [hy, pushParam_sections_desc, pushParam_cur, pushParam_dp]
    · exact ⟨rfl, rfl, rfl⟩

theorem descEq_stepExtra (cfg : Config) (l : String) (n : Option String) :
    DescEq (fun s => stepExtra cfg l n s) := by
  intro s
  show (stepExtra cfg l n s).sections.map Section.description = _ ∧
    (stepExtra cfg l n s).currentSection = _ ∧ (stepExtra cfg l n s).descriptionParsing = _
  unfold stepExtra
  split
  · exact ⟨rfl, rfl, rfl⟩
  · exact ⟨pushParam_sections_desc _ _, pushParam_cur _ _, pushParam_dp _ _⟩
  · split
    · rename_i nl
      cases hy : (parseYamlLine nl).isYamlKey
      · simp [hy]
      · simp [hy, pushParam_sections_desc, pushParam_cur, pushParam_dp]
    · exact ⟨rfl, rfl, rfl⟩

theorem stepSection_none {cfg : Config} {l : String} (st : ScanState)
    (h : matchSimpleTag cfg.commentFmt cfg.sectionTag l = none) :
    stepSection cfg l st = st := by
  unfold stepSection
  simp [h]

theorem stepEnd_none {cfg : Config} {l : String} (st : ScanState)
    (h : matchSimpleTag cfg.commentFmt cfg.descEndTag l = none) :
    stepEnd cfg l st = st := by
  unfold stepEnd
  simp [h]

theorem stepEnd_some {cfg : Config} {l : String} (st : ScanState) {e : String}
    (h : matchSimpleTag cfg.commentFmt cfg.descEndTag l = some e)
    (hc : st.currentSection.isSome = true) (hd : st.descriptionParsing = true) :
    stepEnd cfg l st = { st with descriptionParsing := false } := by
  unfold stepEnd
  simp [h, hc, hd]

theorem stepContent_on {cfg : Config} {l : String} (st : ScanState) {txt : String}
    (h : matchContent cfg.commentFmt l = some txt)
    (hc : st.currentSection.isSome = true) (hd : st.descriptionParsing = true) :
    stepContent cfg l st = addDescLine st txt := by
  unfold stepContent
  simp [h, hc, hd]

theorem stepContent_off {cfg : Config} {l : String} (st : ScanState)
    (hd : st.descriptionParsing = false) :
    stepContent cfg l st = st := by
  unfold stepContent
  cases h : matchContent cfg.commentFmt l <;> simp [h, hd]

theorem stepStart_on {cfg : Config} {l : String} (st : ScanState)
    (hd : st.descriptionParsing = true) :
    stepStart cfg l st = st := by
  unfold stepStart
  cases h : matchSimpleTag cfg.commentFmt cfg.descStartTag l <;> simp [h, hd]

theorem stepStart_none {cfg : Config} {l : String} (st : ScanState)
    (h : matchSimpleTag cfg.commentFmt cfg.descStartTag l = none) :
    stepStart cfg l st = st := by
  unfold stepStart
  simp [h]

theorem addDescLine_at (st : ScanState) (txt : String) (i : Nat)
    (hc : st.currentSection = some i) :
    (addDescLine st txt).sections[i]? =
        st.sections[i]?.map (fun s => { s with description := s.description ++ [txt] }) ∧
    (addDescLine st txt).currentSection = st.currentSection ∧
    (addDescLine st txt).descriptionParsing = st.descriptionParsing := by
  unfold addDescLine
  simp [hc, getElem?_modifyIdx]

/-- C10 (amended): while description capture is active for the current
section, any line that begins (after optional whitespace) with the configured
comment prefix — the content pattern matches any comment line, not only
dedicated description lines — has its trailing text appended to the current
section's description, with two exceptions: a line matching the
description-end pattern (capture is turned off before the content check on
the same line, so its text is never appended), and a line matching the
section pattern (it switches the current section first, so its text lands on
the newly created section — see the counterexample). -/
theorem claim_C10 (cfg : Config) (st : ScanState) (l : String) (n : Option String)
    (i : Nat) (sec : Section) (txt : String)
    (hcur : st.currentSection = some i)
    (hsec : st.sections[i]? = some sec)
    (hdp : st.descriptionParsing = true)
    (hcontent : matchContent cfg.commentFmt l = some txt)
    (hnosec : matchSimpleTag cfg.commentFmt cfg.sectionTag l = none) :
    (matchSimpleTag cfg.commentFmt cfg.descEndTag l = none →
      ((scanStep cfg st l n).sections[i]?).map Section.description =
        some (sec.description ++ [txt])) ∧
    (∀ e, matchSimpleTag cfg.commentFmt cfg.descEndTag l = some e →
      matchSimpleTag cfg.commentFmt cfg.descStartTag l = none →
      ((scanStep cfg st l n).sections[i]?).map Section.description = some sec.description ∧
      (scanStep cfg st l n).descriptionParsing = false) := by
  have d1 := descEq_stepYaml l st
  have d2 := descEq_stepParam cfg l n (stepYaml st l)
  have hcur2 : (stepParam cfg l n (stepYaml st l)).currentSection = some i := by
    rw [d2.2.1, d1.2.1, hcur]
  have hdp2 : (stepParam cfg l n (stepYaml st l)).descriptionParsing = true := by
    rw [d2.2.2, d1.2.2, hdp]
  have hmap2 : (stepParam cfg l n (stepYaml st l)).sections.map Section.description =
      st.sections.map Section.description := d2.1.trans d1.1
  have hdesc2 : ((stepParam cfg l n (stepYaml st l)).sections[i]?).map Section.description =
      some sec.description := by
    rw [← List.getElem?_map, hmap2, List.getElem?_map, hsec]
    rfl
  have hs3 : stepSection cfg l (stepParam cfg l n (stepYaml st l)) =
      stepParam cfg l n (stepYaml st l) := stepSection_none _ hnosec
  constructor
  · intro hend
    have hs4 : stepEnd cfg l (stepParam cfg l n (stepYaml st l)) =
        stepParam cfg l n (stepYaml st l) := stepEnd_none _ hend
    have hs5 : stepContent cfg l (stepParam cfg l n (stepYaml st l)) =
        addDescLine (stepParam cfg l n (stepYaml st l)) txt :=
      stepContent_on _ hcontent (by rw [hcur2]; rfl) hdp2
    have h5 := addDescLine_at (stepParam cfg l n (stepYaml st l)) txt i hcur2
    have hs6 : stepStart cfg l (addDescLine (stepParam cfg l n (stepYaml st l)) txt) =
        addDescLine (stepParam cfg l n (stepYaml st l)) txt :=
      stepStart_on _ (by rw [h5.2.2, hdp2])
    have d7 := descEq_stepSkip cfg l n (addDescLine (stepParam cfg l n (stepYaml st l)) txt)
    have d8 := descEq_stepExtra cfg l n
      (stepSkip cfg l n (addDescLine (stepParam cfg l n (stepYaml st l)) txt))
    rw [show scanStep cfg st l n = stepExtra cfg l n (stepSkip cfg l n (stepStart cfg l
        (stepContent cfg l (stepEnd cfg l (stepSection cfg l
          (stepParam cfg l n (stepYaml st l))))))) from rfl,
      hs3, hs4, hs5, hs6]
    rw [← List.getElem?_map, d8.1, d7.1, List.getElem?_map, h5.1]
    obtain ⟨y, hy, hyd⟩ := Option.map_eq_some'.mp hdesc2
    rw [hy]
    simp only [Option.map_some']
    simp [hyd]
  · intro e hend hnostart
    have hs4 : stepEnd cfg l (stepParam cfg l n (stepYaml st l)) =
        { stepParam cfg l n (stepYaml st l) with descriptionParsing := false } :=
      stepEnd_some _ hend (by rw [hcur2]; rfl) hdp2
    have hs5 : stepContent cfg l
        ({ stepParam cfg l n (stepYaml st l) with descriptionParsing := false }) =
        { stepParam cfg l n (stepYaml st l) with descriptionParsing := false } :=
      stepContent_off _ rfl
    have hs6 : stepStart cfg l
        ({ stepParam cfg l n (stepYaml st l) with descriptionParsing := false }) =
        { stepParam cfg l n (stepYaml st l) with descriptionParsing := false } :=
      stepStart_none _ hnostart
    have d7 := descEq_stepSkip cfg l n
      ({ stepParam cfg l n (stepYaml st l) with descriptionParsing := false })
    have d8 := descEq_stepExtra cfg l n
      (stepSkip cfg l n ({ stepParam cfg l n (stepYaml st l) with descriptionParsing := false }))
    rw [show scanStep cfg st l n = stepExtra cfg l n (stepSkip cfg l n (stepStart cfg l
        (stepContent cfg l (stepEnd cfg l (stepSection cfg l
          (stepParam cfg l n (stepYaml st l))))))) from rfl,
      hs3, hs4, hs5, hs6]
    constructor
    · rw [← List.getElem?_map, d8.1, d7.1]
      rw [show ({ stepParam cfg l n (stepYaml st l) with
          descriptionParsing := false } : ScanState).sections =
        (stepParam cfg l n (stepYaml st l)).sections from rfl]
      rw [List.getElem?_map]
      exact hdesc2
    · rw [d8.2.2, d7.2.2]

/-- Witness for C10: a plain comment line during active capture is appended
to the current section's description. -/
theorem claim_C10_witness :
    ((scanStep defaultConfig
        { sections := [{ name := "A" }], currentSection := some 0,
          descriptionParsing := true } "## some text" none).sections[0]?).map
        Section.description = some ([] ++ ["some text"]) :=
  (claim_C10 defaultConfig
    { sections := [{ name := "A" }], currentSection := some 0, descriptionParsing := true }
    "## some text" none 0 { name := "A" } "some text" rfl rfl rfl rfl rfl).1 rfl

/-- C10 is false as stated: a section-tag line during active capture also
begins with the comment prefix and is not the description-end tag, yet its
text is appended to the newly created section, not to the section for which
capture was active (whose description stays empty). -/
theorem claim_C10_counterexample :
    matchContent defaultConfig.commentFmt "## @section B" = some "@section B" ∧
    matchSimpleTag defaultConfig.commentFmt defaultConfig.descEndTag "## @section B" = none ∧
    ((scanStep defaultConfig
        { sections := [{ name := "A" }], currentSection := some 0,
          descriptionParsing := true } "## @section B" none).sections.map
        (fun s => (s.name, s.description))) = [("A", []), ("B", ["@section B"])] :=
  ⟨rfl, rfl, rfl⟩

/-! ## The duplicate-name check of the flattener (claims C6, C2, C4) -/

theorem emits_congr (v : Value) (paths : List String) :
    ∀ (s1 s2 : List String), (∀ x, x ∈ s1 ↔ x ∈ s2) →
      emits v s1 paths = emits v s2 paths := by
  induction paths with
  | nil => intro s1 s2 h; rfl
  | cons vp rest ih =>
    intro s1 s2 h
    unfold emits
    by_cases hm : (emit v vp).name ∈ s1
    · rw [if_pos hm, if_pos ((h _).mp hm)]
      exact ih s1 s2 h
    · rw [if_neg hm, if_neg (fun hx => hm ((h _).mpr hx))]
      refine congrArg _ ?_
      refine ih _ _ (fun x => ?_)
      simp only [List.mem_cons]
      exact or_congr Iff.rfl (h x)

theorem anyName_iff (acc : List Parameter) (n : String) :
    (acc.any (fun q => q.name = n) = true) ↔ n ∈ acc.map (fun p => p.name) := by
  rw [List.any_eq_true]
  constructor
  · rintro ⟨q, hq, he⟩
    exact List.mem_map.mpr ⟨q, hq, by simpa using he⟩
  · rintro hm
    obtain ⟨q, hq, he⟩ := List.mem_map.mp hm
    exact ⟨q, hq, by simpa using he⟩

theorem emits_cons (v : Value) (seen : List String) (vp : String) (rest : List String) :
    emits v seen (vp :: rest) =
      if (emit v vp).name ∈ seen then emits v seen rest
      else emit v vp :: emits v ((emit v vp).name :: seen) rest := rfl

theorem foldl_cvoStep_emits (v : Value) (paths : List String) :
    ∀ (acc : List Parameter),
      paths.foldl (cvoStep v) acc = acc ++ emits v (acc.map (fun p => p.name)) paths := by
  induction paths with
  | nil => intro acc; simp [emits]
  | cons vp rest ih =>
    intro acc
    rw [List.foldl_cons, ih, emits_cons]
    unfold cvoStep
    dsimp only
    by_cases hm : (emit v vp).name ∈ acc.map (fun p => p.name)
    · rw [if_pos ((anyName_iff acc _).mpr hm), if_pos hm]
    · rw [if_neg (fun hx => hm ((anyName_iff acc _).mp hx)), if_neg hm]
      have hcong : emits v ((acc ++ [emit v vp]).map (fun p => p.name)) rest =
          emits v ((emit v vp).name :: acc.map (fun p => p.name)) rest := by
        refine emits_congr v rest _ _ (fun x => ?_)
        simp only [List.map_append, List.mem_append, List.mem_cons, List.map_cons,
          List.map_nil, List.mem_singleton, List.not_mem_nil, or_false]
        tauto
      rw [hcong]
      simp

theorem emits_mem (v : Value) (paths : List String) :
    ∀ (seen : List String) (p : Parameter), p ∈ emits v seen paths →
      (∃ vp ∈ paths, p = emit v vp) ∧ p.name ∉ seen := by
  induction paths with
  | nil => intro seen p hp; simp [emits] at hp
  | cons vp rest ih =>
    intro seen p hp
    rw [emits_cons] at hp
    by_cases hm : (emit v vp).name ∈ seen
    · rw [if_pos hm] at hp
      obtain ⟨⟨vp', hvp', he⟩, hn⟩ := ih seen p hp
      exact ⟨⟨vp', List.mem_cons_of_mem _ hvp', he⟩, hn⟩
    · rw [if_neg hm] at hp
      rcases List.mem_cons.mp hp with rfl | hp
      · exact ⟨⟨vp, List.mem_cons_self _ _, rfl⟩, hm⟩
      · obtain ⟨⟨vp', hvp', he⟩, hn⟩ := ih _ p hp
        refine ⟨⟨vp', List.mem_cons_of_mem _ hvp', he⟩, fun hx => hn ?_⟩
        exact List.mem_cons_of_mem _ hx
    
theorem emits_nodup (v : Value) (paths : List String) :
    ∀ (seen : List String), ((emits v seen paths).map (fun p => p.name)).Nodup := by
  induction paths with
  | nil => intro seen; simp [emits]
  | cons vp rest ih =>
    intro seen
    rw [emits_cons]
    by_cases hm : (emit v vp).name ∈ seen
    · rw [if_pos hm]
      exact ih seen
    · rw [if_neg hm]
      simp only [List.map_cons, List.nodup_cons]
      refine ⟨?_, ih _⟩
      intro hx
      obtain ⟨q, hq, he⟩ := List.mem_map.mp hx
      have := (emits_mem v rest _ q hq).2
      exact this (by rw [he]; exact List.mem_cons_self _ _)

theorem emits_first (v : Value) (paths : List String) :
    ∀ (seen : List String) (vp : String), vp ∈ paths →
      (emit v vp).name ∉ seen →
      (∀ vp' ∈ paths, (emit v vp').name = (emit v vp).name → emit v vp' = emit v vp) →
      emit v vp ∈ emits v seen paths := by
  induction paths with
  | nil => intro seen vp h; simp at h
  | cons vp0 rest ih =>
    intro seen vp hvp hns hall
    rw [emits_cons]
    by_cases he0 : (emit v vp0).name = (emit v vp).name
    · have : emit v vp0 = emit v vp := hall vp0 (List.mem_cons_self _ _) he0
      rw [if_neg (by rw [this]; exact hns)]
      rw [this]
      exact List.mem_cons_self _ _
    · have hvp' : vp ∈ rest := by
        rcases List.mem_cons.mp hvp with rfl | h
        · exact absurd rfl he0
        · exact h
      by_cases hm : (emit v vp0).name ∈ seen
      · rw [if_pos hm]
        exact ih seen vp hvp' hns (fun vp' h' => hall vp' (List.mem_cons_of_mem _ h'))
      · rw [if_neg hm]
        refine List.mem_cons_of_mem _ ?_
        refine ih _ vp hvp' ?_ (fun vp' h' => hall vp' (List.mem_cons_of_mem _ h'))
        intro hx
        rcases List.mem_cons.mp hx with hx | hx
        · exact he0 hx.symm
        · exact hns hx

theorem cvo_eq_emits (v : Value) :
    createValuesObject v = emits v [] ((dotted v).map Prod.fst) := by
  unfold createValuesObject
  rw [foldl_cvoStep_emits]
  simp

theorem cvo_names_nodup (v : Value) :
    ((createValuesObject v).map (fun p => p.name)).Nodup := by
  rw [cvo_eq_emits]
  exact emits_nodup v _ []

/-- C6 (amended): the list returned by `createValuesObject` never contains
two Parameters with the same name (the duplicate-name check of line 343 is
unconditional).  The scanner half of the claim is false — see the
counterexample. -/
theorem claim_C6 (v : Value) :
    ((createValuesObject v).map (fun p => p.name)).Nodup :=
  cvo_names_nodup v

/-- C6 is false as stated for the scanner: two explicit-path param tags with
the same path yield two Parameters with equal names in
`Metadata.parameters`. -/
theorem claim_C6_counterexample :
    ¬ (∀ (cfg : Config) (content : String),
        ((parseMetadataComments cfg content).parameters.map (fun p => p.name)).Nodup) := by
  intro h
  have hd := h defaultConfig "## @param (a) x\n## @param (a) y"
  rw [show (parseMetadataComments defaultConfig
      "## @param (a) x\n## @param (a) y").parameters.map (fun p => p.name) =
    ["a", "a"] from rfl] at hd
  simp at hd

/-! ## Round trip between flattening and structural lookup

These lemmas connect `dotted` (the dot-object flattening) with `lget`
(the lodash lookup) and `literalGet` (the fallback lookup) on trees whose
mapping keys are well-formed (`Good`). -/

theorem value_ind2 (motive : Value → Prop)
    (hnull : motive .vnull) (hstr : ∀ s, motive (.vstr s))
    (hnum : ∀ n, motive (.vnum n)) (hbool : ∀ b, motive (.vbool b))
    (harr : ∀ xs, (∀ w ∈ xs, motive w) → motive (.varr xs))
    (hobj : ∀ fs, (∀ kw ∈ fs, motive kw.2) → motive (.vobj fs)) :
    ∀ v, motive v := by
  have H : ∀ (n : Nat) (v : Value), sizeOf v ≤ n → motive v := by
    intro n
    induction n with
    | zero =>
      intro v hv
      cases v <;> simp at hv
    | succ n ih =>
      intro v hv
      cases v with
      | vnull => exact hnull
      | vstr s => exact hstr s
      | vnum m => exact hnum m
      | vbool b => exact hbool b
      | varr xs =>
        refine harr xs (fun w hw => ih w ?_)
        have h1 := List.sizeOf_lt_of_mem hw
        simp only [Value.varr.sizeOf_spec] at hv
        omega
      | vobj fs =>
        refine hobj fs (fun kw hkw => ih kw.2 ?_)
        have h1 := List.sizeOf_lt_of_mem hkw
        obtain ⟨k, w⟩ := kw
        simp only [Prod.mk.sizeOf_spec] at h1
        simp only [Value.vobj.sizeOf_spec] at hv
        simp only
        omega
  exact fun v => H (sizeOf v) v (Nat.le_refl _)

theorem good_obj {fs : List (String × Value)} (h : Good (.vobj fs)) :
    (fs.map Prod.fst).Nodup ∧ (∀ kw ∈ fs, GoodKey kw.1) ∧ (∀ kw ∈ fs, Good kw.2) := by
  cases h with
  | vobj _ h1 h2 h3 => exact ⟨h1, h2, h3⟩

theorem good_arr {xs : List Value} (h : Good (.varr xs)) : ∀ w ∈ xs, Good w := by
  cases h with
  | varr _ h1 => exact h1

theorem prefB_iff (p : List Char) : ∀ (l : List Char), prefB p l = true ↔ ∃ t, l = p ++ t := by
  induction p with
  | nil => intro l; simp [prefB]
  | cons c p ih =>
    intro l
    cases l with
    | nil =>
      simp only [prefB]
      constructor
      · intro h; exact absurd h (by simp)
      · rintro ⟨t, ht⟩; simp at ht
    | cons d t =>
      simp only [prefB, Bool.and_eq_true, decide_eq_true_eq]
      rw [ih t]
      constructor
      · rintro ⟨rfl, u, rfl⟩
        exact ⟨u, rfl⟩
      · rintro ⟨u, hu⟩
        simp only [List.cons_append, List.cons.injEq] at hu
        exact ⟨hu.1.symm, u, hu.2⟩

theorem takeWhile_app (p : Char → Bool) :
    ∀ (l r : List Char), (∀ c ∈ l, p c = true) →
      (l ++ r).takeWhile p = l ++ r.takeWhile p := by
  intro l r h
  induction l with
  | nil => simp
  | cons c t ih =>
    simp only [List.cons_append, List.takeWhile_cons]
    rw [h c (List.mem_cons_self _ _)]
    simp only [if_true]
    rw [ih (fun x hx => h x (List.mem_cons_of_mem _ hx))]

/-- A separator-headed (or empty) suffix after a separator-free run is
determined: if `a ++ s = b ++ s'` with `a`, `b` free of `.` and `[` and `s`,
`s'` empty or starting with one of them, then `a = b` and `s = s'`. -/
theorem sep_split :
    ∀ (a b s s' : List Char),
      (∀ x ∈ a, x ≠ '.' ∧ x ≠ '[') → (∀ x ∈ b, x ≠ '.' ∧ x ≠ '[') →
      (s = [] ∨ (∃ r, s = '.' :: r) ∨ (∃ r, s = '[' :: r)) →
      (s' = [] ∨ (∃ r, s' = '.' :: r) ∨ (∃ r, s' = '[' :: r)) →
      a ++ s = b ++ s' → a = b ∧ s = s' := by
  intro a
  induction a with
  | nil =>
    intro b s s' _ hb hs hs' he
    cases b with
    | nil => exact ⟨rfl, he⟩
    | cons y b' =>
      exfalso
      simp only [List.nil_append, List.cons_append] at he
      have hy := hb y (List.mem_cons_self _ _)
      rcases hs with rfl | ⟨r, rfl⟩ | ⟨r, rfl⟩
      · simp at he
      · have : y = '.' := by
          have := congrArg (fun l => l.head?) he
          simpa using this.symm
        exact hy.1 this
      · have : y = '[' := by
          have := congrArg (fun l => l.head?) he
          simpa using this.symm
        exact hy.2 this
  | cons x a' ih =>
    intro b s s' ha hb hs hs' he
    cases b with
    | nil =>
      exfalso
      simp only [List.cons_append, List.nil_append] at he
      have hx := ha x (List.mem_cons_self _ _)
      rcases hs' with rfl | ⟨r, rfl⟩ | ⟨r, rfl⟩
      · simp at he
      · have : x = '.' := by
          have := congrArg (fun l => l.head?) he
          simpa using this
        exact hx.1 this
      · have : x = '[' := by
          have := congrArg (fun l => l.head?) he
          simpa using this
        exact hx.2 this
    | cons y b' =>
      simp only [List.cons_append, List.cons.injEq] at he
      obtain ⟨rfl, he⟩ := he
      obtain ⟨h1, h2⟩ := ih b' s s'
        (fun c hc => ha c (List.mem_cons_of_mem _ hc))
        (fun c hc => hb c (List.mem_cons_of_mem _ hc)) hs hs' he
      exact ⟨by rw [h1], h2⟩

theorem digitChar_isDigit {n : Nat} (h : n < 10) : (Nat.digitChar n).isDigit = true := by
  interval_cases n <;> decide

theorem digitChar_val {n : Nat} (h : n < 10) : (Nat.digitChar n).toNat - '0'.toNat = n := by
  interval_cases n <;> decide

theorem natDigitsF_digits : ∀ (f n : Nat), n < f → ∀ c ∈ natDigitsF f n, c.isDigit = true := by
  intro f
  induction f with
  | zero => intro n h; omega
  | succ f ih =>
    intro n _ c hc
    unfold natDigitsF at hc
    by_cases h10 : n < 10
    · rw [if_pos h10] at hc
      rw [List.mem_singleton.mp hc]
      exact digitChar_isDigit h10
    · rw [if_neg h10] at hc
      rcases List.mem_append.mp hc with hc | hc
      · exact ih (n / 10) (by omega) c hc
      · rw [List.mem_singleton.mp hc]
        exact digitChar_isDigit (Nat.mod_lt _ (by omega))

theorem natStr_digits (n : Nat) : ∀ c ∈ natStr n, c.isDigit = true :=
  natDigitsF_digits (n + 1) n (Nat.lt_succ_self n)

theorem digitsToNatAux_append (l1 : List Char) :
    ∀ (l2 : List Char) (acc : Nat),
      digitsToNatAux acc (l1 ++ l2) = digitsToNatAux (digitsToNatAux acc l1) l2 := by
  induction l1 with
  | nil => intro l2 acc; rfl
  | cons c t ih => intro l2 acc; exact ih l2 (acc * 10 + (c.toNat - '0'.toNat))

theorem natDigitsF_round :
    ∀ (f n : Nat), n < f → ∀ (acc : Nat),
      digitsToNatAux acc (natDigitsF f n) = acc * 10 ^ (natDigitsF f n).length + n := by
  intro f
  induction f with
  | zero => intro n h; omega
  | succ f ih =>
    intro n hn acc
    unfold natDigitsF
    by_cases h10 : n < 10
    · rw [if_pos h10]
      show acc * 10 + ((Nat.digitChar n).toNat - '0'.toNat) =
        acc * 10 ^ ([Nat.digitChar n].length) + n
      rw [digitChar_val h10, List.length_singleton, pow_one]
    · rw [if_neg h10]
      rw [digitsToNatAux_append]
      have hdiv : n / 10 < f := by
        have h1 : n / 10 < n := Nat.div_lt_self (by omega) (by omega)
        omega
      rw [ih (n / 10) hdiv acc]
      show (acc * 10 ^ (natDigitsF f (n / 10)).length + n / 10) * 10 +
          ((Nat.digitChar (n % 10)).toNat - '0'.toNat) =
        acc * 10 ^ (natDigitsF f (n / 10) ++ [Nat.digitChar (n % 10)]).length + n
      rw [digitChar_val (Nat.mod_lt _ (by omega)), List.length_append, List.length_singleton]
      have hpow : acc * 10 ^ ((natDigitsF f (n / 10)).length + 1) =
          acc * 10 ^ (natDigitsF f (n / 10)).length * 10 := by ring
      rw [hpow]
      have hmod := Nat.div_add_mod n 10
      omega

theorem digitsToNat_natStr (n : Nat) : digitsToNat (natStr n) = n := by
  unfold digitsToNat natStr
  rw [natDigitsF_round (n + 1) n (Nat.lt_succ_self n) 0]
  simp

theorem contStr_shape (t : List Seg) :
    contStrL t = [] ∨ (∃ r, contStrL t = '.' :: r) ∨ (∃ r, contStrL t = '[' :: r) := by
  cases t with
  | nil => exact Or.inl rfl
  | cons s t =>
    cases s with
    | key k => exact Or.inr (Or.inl ⟨_, rfl⟩)
    | idx i => exact Or.inr (Or.inr ⟨_, rfl⟩)

theorem stripDot_contStr (t : List Seg) :
    (match contStrL t with | '.' :: r => r | r => r) = addrStrL t := by
  cases t with
  | nil => rfl
  | cons s t =>
    cases s with
    | key k => rfl
    | idx i => rfl

theorem contStr_append (t1 t2 : List Seg) :
    contStrL (t1 ++ t2) = contStrL t1 ++ contStrL t2 := by
  induction t1 with
  | nil => simp [contStrL]
  | cons s t ih =>
    cases s with
    | key k => simp [contStrL, ih]
    | idx i => simp [contStrL, ih]

theorem addrStr_append (b c : List Seg) (hb : b ≠ []) :
    addrStrL (b ++ c) = addrStrL b ++ contStrL c := by
  cases b with
  | nil => exact absurd rfl hb
  | cons s t =>
    cases s with
    | key k => simp [addrStrL, contStr_append]
    | idx i => simp [addrStrL, contStr_append]

theorem goodKey_keyChar {k : String} (h : GoodKey k) : ∀ c ∈ k.data, keyChar c = true := by
  intro c hc
  have h2 := h.2 c hc
  simp [keyChar, h2.1, h2.2.1]

theorem goodKey_nosep {k : String} (h : GoodKey k) : ∀ c ∈ k.data, c ≠ '.' ∧ c ≠ '[' :=
  fun c hc => ⟨(h.2 c hc).1, (h.2 c hc).2.1⟩

theorem seg_takeWhile {k : String} (hk : GoodKey k) (t : List Seg) :
    (k.data ++ contStrL t).takeWhile keyChar = k.data := by
  rw [takeWhile_app _ _ _ (goodKey_keyChar hk)]
  rcases contStr_shape t with h | ⟨r, h⟩ | ⟨r, h⟩ <;> rw [h] <;> simp [List.takeWhile_cons, keyChar]

theorem lget_key_step {fs : List (String × Value)} {k : String} (hk : GoodKey k) (t : List Seg) :
    lget (.vobj fs) (k.data ++ contStrL t) = lgetObj fs k.data (addrStrL t) := by
  obtain ⟨c, p, hcp⟩ : ∃ c p, k.data ++ contStrL t = c :: p := by
    cases hkd : k.data with
    | nil => exact absurd hkd hk.1
    | cons c rest => exact ⟨c, rest ++ contStrL t, by simp⟩
  rw [hcp]
  rw [show lget (.vobj fs) (c :: p) =
      lgetObj fs ((c :: p).takeWhile keyChar)
        (match (c :: p).drop ((c :: p).takeWhile keyChar).length with
         | '.' :: r => r
         | r => r) from rfl]
  rw [← hcp, seg_takeWhile hk t, List.drop_left, stripDot_contStr]

theorem lgetObj_lookup {fs : List (String × Value)} (hnd : (fs.map Prod.fst).Nodup)
    {k : String} {w : Value} (hmem : (k, w) ∈ fs) (rest : List Char) :
    lgetObj fs k.data rest = lget w rest := by
  induction fs with
  | nil => simp at hmem
  | cons f t ih =>
    obtain ⟨k1, w1⟩ := f
    rw [show lgetObj ((k1, w1) :: t) k.data rest =
        (if k1.data = k.data then lget w1 rest else lgetObj t k.data rest) from rfl]
    by_cases he : k1.data = k.data
    · rw [if_pos he]
      have hks : k1 = k := by
        cases k1; cases k
        exact congrArg String.mk (by simpa using he)
      rcases List.mem_cons.mp hmem with hh | hh
      · obtain ⟨h1, h2⟩ := Prod.mk.injEq .. ▸ hh
        simp only [Prod.mk.injEq] at hh
        rw [hh.2]
      · exfalso
        rw [List.map_cons, List.nodup_cons] at hnd
        apply hnd.1
        rw [hks]
        exact List.mem_map.mpr ⟨(k, w), hh, rfl⟩
    · rw [if_neg he]
      rcases List.mem_cons.mp hmem with hh | hh
      · exfalso
        simp only [Prod.mk.injEq] at hh
        exact he (by rw [hh.1])
      · exact ih (by rw [List.map_cons, List.nodup_cons] at hnd; exact hnd.2) hh

theorem lgetArr_get (xs : List Value) :
    ∀ (n : Nat) (rest : List Char),
      lgetArr xs n rest = match xs[n]? with | some w => lget w rest | none => none := by
  induction xs with
  | nil => intro n rest; cases n <;> rfl
  | cons x t ih =>
    intro n rest
    cases n with
    | zero => rw [show lgetArr (x :: t) 0 rest = lget x rest from rfl]; simp
    | succ n => simpa using ih n rest

theorem litArr_get (xs : List Value) :
    ∀ (n : Nat) (rest : List Char),
      litArr xs n rest = match xs[n]? with | some w => literalGet w rest | none => none := by
  induction xs with
  | nil => intro n rest; cases n <;> rfl
  | cons x t ih =>
    intro n rest
    cases n with
    | zero => rw [show litArr (x :: t) 0 rest = literalGet x rest from rfl]; simp
    | succ n => simpa using ih n rest

theorem idx_takeWhile (i : Nat) (r : List Char) :
    (natStr i ++ ']' :: r).takeWhile Char.isDigit = natStr i := by
  rw [takeWhile_app _ _ _ (natStr_digits i)]
  simp [List.takeWhile_cons]

theorem lget_idx_step (xs : List Value) (i : Nat) (t : List Seg) :
    lget (.varr xs) (addrStrL (Seg.idx i :: t)) =
      (match xs[i]? with | some w => lget w (addrStrL t) | none => none) := by
  show lget (.varr xs) ('[' :: (natStr i ++ ']' :: contStrL t)) = _
  rw [show lget (.varr xs) ('[' :: (natStr i ++ ']' :: contStrL t)) =
      (match (natStr i ++ ']' :: contStrL t).drop
          ((natStr i ++ ']' :: contStrL t).takeWhile Char.isDigit).length with
       | ']' :: r =>
         lgetArr xs (digitsToNat ((natStr i ++ ']' :: contStrL t).takeWhile Char.isDigit))
           (match r with | '.' :: r2 => r2 | r2 => r2)
       | _ => none) from rfl]
  rw [idx_takeWhile, List.drop_left]
  simp only
  rw [stripDot_contStr, digitsToNat_natStr, lgetArr_get]

theorem literalGet_idx_step (xs : List Value) (i : Nat) (t : List Seg) :
    literalGet (.varr xs) (addrStrL (Seg.idx i :: t)) =
      (match xs[i]? with | some w => literalGet w (addrStrL t) | none => none) := by
  show literalGet (.varr xs) ('[' :: (natStr i ++ ']' :: contStrL t)) = _
  rw [show literalGet (.varr xs) ('[' :: (natStr i ++ ']' :: contStrL t)) =
      (match (natStr i ++ ']' :: contStrL t).drop
          ((natStr i ++ ']' :: contStrL t).takeWhile Char.isDigit).length with
       | ']' :: r =>
         litArr xs (digitsToNat ((natStr i ++ ']' :: contStrL t).takeWhile Char.isDigit))
           (match r with | '.' :: r2 => r2 | r2 => r2)
       | _ => none) from rfl]
  rw [idx_takeWhile, List.drop_left]
  simp only
  rw [stripDot_contStr, digitsToNat_natStr, litArr_get]

theorem flatFields_mem (fs : List (String × Value)) (a : List Seg) (w : Value) :
    (a, w) ∈ flatAddrsFields fs ↔
      ∃ k w', (k, w') ∈ fs ∧ ∃ a', (a', w) ∈ flatAddrs w' ∧ a = Seg.key k :: a' := by
  induction fs with
  | nil => simp [flatAddrsFields]
  | cons f t ih =>
    obtain ⟨k1, w1⟩ := f
    rw [show flatAddrsFields ((k1, w1) :: t) =
        (flatAddrs w1).map (fun aw => (Seg.key k1 :: aw.1, aw.2)) ++ flatAddrsFields t from rfl]
    simp only [List.mem_append, List.mem_map, ih]
    constructor
    · rintro (⟨⟨a', w'⟩, hm, he⟩ | ⟨k, w', hk, a', hm, rfl⟩)
      · simp only [Prod.mk.injEq] at he
        exact ⟨k1, w1, List.mem_cons_self _ _, a', by rw [he.2] at hm; exact hm, he.1.symm⟩
      · exact ⟨k, w', List.mem_cons_of_mem _ hk, a', hm, rfl⟩
    · rintro ⟨k, w', hk, a', hm, rfl⟩
      rcases List.mem_cons.mp hk with heq | hk'
      · left
        simp only [Prod.mk.injEq] at heq
        exact ⟨(a', w), by rw [← heq.2]; exact hm, by rw [heq.1]⟩
      · right
        exact ⟨k, w', hk', a', hm, rfl⟩

theorem flatElems_mem (xs : List Value) : ∀ (j : Nat) (a : List Seg) (w : Value),
    (a, w) ∈ flatAddrsElems j xs ↔
      ∃ i w', xs[i]? = some w' ∧ ∃ a', (a', w) ∈ flatAddrs w' ∧ a = Seg.idx (j + i) :: a' := by
  induction xs with
  | nil => intro j a w; simp [flatAddrsElems]
  | cons x t ih =>
    intro j a w
    rw [show flatAddrsElems j (x :: t) =
        (flatAddrs x).map (fun aw => (Seg.idx j :: aw.1, aw.2)) ++ flatAddrsElems (j + 1) t
      from rfl]
    simp only [List.mem_append, List.mem_map, ih (j + 1)]
    constructor
    · rintro (⟨⟨a', w'⟩, hm, he⟩ | ⟨i, w', hi, a', hm, rfl⟩)
      · simp only [Prod.mk.injEq] at he
        refine ⟨0, x, by simp, a', by rw [he.2] at hm; exact hm, ?_⟩
        rw [← he.1]
        simp
      · refine ⟨i + 1, w', by simpa using hi, a', hm, ?_⟩
        have : j + 1 + i = j + (i + 1) := by omega
        rw [this]
    · rintro ⟨i, w', hi, a', hm, rfl⟩
      cases i with
      | zero =>
        left
        simp only [List.getElem?_cons_zero, Option.some.injEq] at hi
        exact ⟨(a', w), by rw [hi]; exact hm, by simp⟩
      | succ i =>
        right
        simp only [List.getElem?_cons_succ] at hi
        refine ⟨i, w', hi, a', hm, ?_⟩
        have : j + 1 + i = j + (i + 1) := by omega
        rw [this]

theorem flat_leaf (v : Value) (h : isLeaf v) : flatAddrs v = [([], v)] := by
  cases v with
  | varr xs => cases xs with
    | nil => rfl
    | cons x t => exact absurd h (by simp [isLeaf])
  | vobj fs => cases fs with
    | nil => rfl
    | cons f t => exact absurd h (by simp [isLeaf])
  | vnull => rfl
  | vstr s => rfl
  | vnum n => rfl
  | vbool b => rfl

theorem flat_leaf_mem {v : Value} (hl : isLeaf v) {a : List Seg} {w : Value}
    (h : (a, w) ∈ flatAddrs v) : a = [] ∧ w = v := by
  rw [flat_leaf v hl] at h
  simpa using h

theorem flat_nil_mem {v w : Value} (h : ([], w) ∈ flatAddrs v) : w = v := by
  cases v with
  | vobj fs =>
    cases fs with
    | nil => exact (flat_leaf_mem (by simp [isLeaf]) h).2
    | cons f t =>
      rw [show flatAddrs (.vobj (f :: t)) = flatAddrsFields (f :: t) from rfl,
        flatFields_mem] at h
      obtain ⟨k, w', _, a', _, he⟩ := h
      simp at he
  | varr xs =>
    cases xs with
    | nil => exact (flat_leaf_mem (by simp [isLeaf]) h).2
    | cons x t =>
      rw [show flatAddrs (.varr (x :: t)) = flatAddrsElems 0 (x :: t) from rfl,
        flatElems_mem] at h
      obtain ⟨i, w', _, a', _, he⟩ := h
      simp at he
  | vnull => exact (flat_leaf_mem (by simp [isLeaf]) h).2
  | vstr s => exact (flat_leaf_mem (by simp [isLeaf]) h).2
  | vnum n => exact (flat_leaf_mem (by simp [isLeaf]) h).2
  | vbool b => exact (flat_leaf_mem (by simp [isLeaf]) h).2

theorem flat_key_mem {v w : Value} {k : String} {a' : List Seg}
    (h : (Seg.key k :: a', w) ∈ flatAddrs v) :
    ∃ fs, v = .vobj fs ∧ ∃ w', (k, w') ∈ fs ∧ (a', w) ∈ flatAddrs w' := by
  cases v with
  | vobj fs =>
    cases fs with
    | nil => exact absurd (flat_leaf_mem (by simp [isLeaf]) h).1 (by simp)
    | cons f t =>
      rw [show flatAddrs (.vobj (f :: t)) = flatAddrsFields (f :: t) from rfl,
        flatFields_mem] at h
      obtain ⟨k0, w', hk, a'', hm, he⟩ := h
      simp only [List.cons.injEq, Seg.key.injEq] at he
      exact ⟨f :: t, rfl, w', by rw [he.1]; exact hk, by rw [he.2]; exact hm⟩
  | varr xs =>
    cases xs with
    | nil => exact absurd (flat_leaf_mem (by simp [isLeaf]) h).1 (by simp)
    | cons x t =>
      rw [show flatAddrs (.varr (x :: t)) = flatAddrsElems 0 (x :: t) from rfl,
        flatElems_mem] at h
      obtain ⟨i, w', _, a'', _, he⟩ := h
      simp at he
  | vnull => exact absurd (flat_leaf_mem (by simp [isLeaf]) h).1 (by simp)
  | vstr s => exact absurd (flat_leaf_mem (by simp [isLeaf]) h).1 (by simp)
  | vnum n => exact absurd (flat_leaf_mem (by simp [isLeaf]) h).1 (by simp)
  | vbool b => exact absurd (flat_leaf_mem (by simp [isLeaf]) h).1 (by simp)

theorem flat_idx_mem {v w : Value} {i : Nat} {a' : List Seg}
    (h : (Seg.idx i :: a', w) ∈ flatAddrs v) :
    ∃ xs, v = .varr xs ∧ ∃ w', xs[i]? = some w' ∧ (a', w) ∈ flatAddrs w' := by
  cases v with
  | vobj fs =>
    cases fs with
    | nil => exact absurd (flat_leaf_mem (by simp [isLeaf]) h).1 (by simp)
    | cons f t =>
      rw [show flatAddrs (.vobj (f :: t)) = flatAddrsFields (f :: t) from rfl,
        flatFields_mem] at h
      obtain ⟨k0, w', _, a'', _, he⟩ := h
      simp at he
  | varr xs =>
    cases xs with
    | nil => exact absurd (flat_leaf_mem (by simp [isLeaf]) h).1 (by simp)
    | cons x t =>
      rw [show flatAddrs (.varr (x :: t)) = flatAddrsElems 0 (x :: t) from rfl,
        flatElems_mem] at h
      obtain ⟨i0, w', hi, a'', hm, he⟩ := h
      simp only [List.cons.injEq, Seg.idx.injEq, Nat.zero_add] at he
      exact ⟨x :: t, rfl, w', by rw [he.1]; exact hi, by rw [he.2]; exact hm⟩
  | vnull => exact absurd (flat_leaf_mem (by simp [isLeaf]) h).1 (by simp)
  | vstr s => exact absurd (flat_leaf_mem (by simp [isLeaf]) h).1 (by simp)
  | vnum n => exact absurd (flat_leaf_mem (by simp [isLeaf]) h).1 (by simp)
  | vbool b => exact absurd (flat_leaf_mem (by simp [isLeaf]) h).1 (by simp)

theorem mem_of_idx {α : Type} (l : List α) : ∀ (i : Nat) (a : α), l[i]? = some a → a ∈ l := by
  induction l with
  | nil => intro i a h; simp at h
  | cons x t ih =>
    intro i a h
    cases i with
    | zero =>
      simp only [List.getElem?_cons_zero, Option.some.injEq] at h
      rw [← h]
      exact List.mem_cons_self _ _
    | succ i =>
      simp only [List.getElem?_cons_succ] at h
      exact List.mem_cons_of_mem _ (ih i a h)

theorem flat_lget : ∀ (v : Value), Good v →
    ∀ (a : List Seg) (w : Value), (a, w) ∈ flatAddrs v → lget v (addrStrL a) = some w := by
  refine value_ind2 _ ?_ ?_ ?_ ?_ ?_ ?_
  · intro _ a w h
    cases a with
    | nil => rw [flat_nil_mem h]; rfl
    | cons s t =>
      cases s with
      | key k => obtain ⟨fs, he, _⟩ := flat_key_mem h; cases he
      | idx i => obtain ⟨xs, he, _⟩ := flat_idx_mem h; cases he
  · intro s _ a w h
    cases a with
    | nil => rw [flat_nil_mem h]; rfl
    | cons sg t =>
      cases sg with
      | key k => obtain ⟨fs, he, _⟩ := flat_key_mem h; cases he
      | idx i => obtain ⟨xs, he, _⟩ := flat_idx_mem h; cases he
  · intro n _ a w h
    cases a with
    | nil => rw [flat_nil_mem h]; rfl
    | cons sg t =>
      cases sg with
      | key k => obtain ⟨fs, he, _⟩ := flat_key_mem h; cases he
      | idx i => obtain ⟨xs, he, _⟩ := flat_idx_mem h; cases he
  · intro b _ a w h
    cases a with
    | nil => rw [flat_nil_mem h]; rfl
    | cons sg t =>
      cases sg with
      | key k => obtain ⟨fs, he, _⟩ := flat_key_mem h; cases he
      | idx i => obtain ⟨xs, he, _⟩ := flat_idx_mem h; cases he
  · intro xs ih hg a w h
    cases a with
    | nil => rw [flat_nil_mem h]; rfl
    | cons sg t =>
      cases sg with
      | key k =>
        obtain ⟨fs, he, _⟩ := flat_key_mem h
        cases he
      | idx i =>
        obtain ⟨xs0, he, w', hi, hm⟩ := flat_idx_mem h
        cases he
        rw [lget_idx_step, hi]
        have hw' : w' ∈ xs := mem_of_idx xs i w' hi
        exact ih w' hw' (good_arr hg w' hw') t w hm
  · intro fs ih hg a w h
    cases a with
    | nil => rw [flat_nil_mem h]; rfl
    | cons sg t =>
      cases sg with
      | key k =>
        obtain ⟨fs0, he, w', hk, hm⟩ := flat_key_mem h
        cases he
        obtain ⟨hnd, hgk, hgw⟩ := good_obj hg
        have hGk : GoodKey k := hgk (k, w') hk
        rw [show addrStrL (Seg.key k :: t) = k.data ++ contStrL t from rfl,
          lget_key_step hGk t, lgetObj_lookup hnd hk]
        exact ih (k, w') hk (hgw (k, w') hk) t w hm
      | idx i =>
        obtain ⟨xs, he, _⟩ := flat_idx_mem h
        cases he

theorem nodup_val_unique {fs : List (String × Value)} (hnd : (fs.map Prod.fst).Nodup)
    {k : String} {w1 w2 : Value} (h1 : (k, w1) ∈ fs) (h2 : (k, w2) ∈ fs) : w1 = w2 := by
  induction fs with
  | nil => simp at h1
  | cons f t ih =>
    obtain ⟨k0, w0⟩ := f
    rw [List.map_cons, List.nodup_cons] at hnd
    rcases List.mem_cons.mp h1 with ha | ha <;> rcases List.mem_cons.mp h2 with hb | hb
    · simp only [Prod.mk.injEq] at ha hb
      rw [ha.2, hb.2]
    · exfalso
      simp only [Prod.mk.injEq] at ha
      exact hnd.1 (ha.1 ▸ List.mem_map.mpr ⟨(k, w2), hb, rfl⟩)
    · exfalso
      simp only [Prod.mk.injEq] at hb
      exact hnd.1 (hb.1 ▸ List.mem_map.mpr ⟨(k, w1), ha, rfl⟩)
    · exact ih hnd.2 ha hb

theorem append_cons_ne_self {l r : List Char} {c : Char} : l ++ c :: r ≠ l := by
  intro h
  have := congrArg List.length h
  simp at this

theorem keys_nexact {k1 k : String} (h1 : GoodKey k1) (h : GoodKey k) (hne : k1 ≠ k)
    (s : List Seg) : k.data ++ contStrL s ≠ k1.data := by
  intro he
  have := sep_split k.data k1.data (contStrL s) [] (goodKey_nosep h) (goodKey_nosep h1)
    (contStr_shape s) (Or.inl rfl) (by simpa using he)
  apply hne
  cases k1; cases k
  exact congrArg String.mk this.1.symm

theorem keys_nopref {k1 k : String} (h1 : GoodKey k1) (h : GoodKey k) (hne : k1 ≠ k)
    {c : Char} (hc : c = '.' ∨ c = '[') (s : List Seg) :
    ¬ prefB (k1.data ++ [c]) (k.data ++ contStrL s) = true := by
  intro hp
  obtain ⟨u, hu⟩ := (prefB_iff _ _).mp hp
  rw [List.append_assoc] at hu
  have := sep_split k.data k1.data (contStrL s) (c :: u) (goodKey_nosep h) (goodKey_nosep h1)
    (contStr_shape s)
    (by rcases hc with rfl | rfl
        · exact Or.inr (Or.inl ⟨u, rfl⟩)
        · exact Or.inr (Or.inr ⟨u, rfl⟩)) hu
  apply hne
  cases k1; cases k
  exact congrArg String.mk this.1.symm

theorem prefB_self_cons (l r : List Char) (c : Char) :
    prefB (l ++ [c]) (l ++ c :: r) = true :=
  (prefB_iff _ _).mpr ⟨r, by simp⟩

theorem prefB_self_cons_ne (l r : List Char) {c d : Char} (hcd : c ≠ d) :
    ¬ prefB (l ++ [c]) (l ++ d :: r) = true := by
  intro hp
  obtain ⟨u, hu⟩ := (prefB_iff _ _).mp hp
  rw [List.append_assoc] at hu
  have := List.append_cancel_left hu
  simp only [List.singleton_append, List.cons.injEq] at this
  exact hcd this.1.symm

theorem drop_sep (l r : List Char) (c : Char) :
    (l ++ c :: r).drop (l.length + 1) = r := by
  rw [show l ++ c :: r = (l ++ [c]) ++ r by simp]
  rw [show l.length + 1 = (l ++ [c]).length by simp]
  exact List.drop_left _ _

theorem lget_nil (v : Value) : lget v [] = some v := by
  cases v <;> rfl

theorem literalGet_nil (v : Value) : literalGet v [] = some v := by
  cases v <;> rfl

theorem litObj_step : ∀ (fs : List (String × Value)), (fs.map Prod.fst).Nodup →
    (∀ kw ∈ fs, GoodKey kw.1) → ∀ (k : String) (w' : Value), (k, w') ∈ fs →
    ∀ (s : List Seg), litObj fs (k.data ++ contStrL s) = literalGet w' (addrStrL s) := by
  intro fs
  induction fs with
  | nil => intro _ _ k w' hm; simp at hm
  | cons f t ih =>
    obtain ⟨k1, w1⟩ := f
    intro hnd hgk k w' hm s
    rw [show litObj ((k1, w1) :: t) (k.data ++ contStrL s) =
        (if k.data ++ contStrL s = k1.data then some w1
         else if prefB (k1.data ++ ['.']) (k.data ++ contStrL s) then
           literalGet w1 ((k.data ++ contStrL s).drop (k1.data.length + 1))
         else if prefB (k1.data ++ ['[']) (k.data ++ contStrL s) then
           literalGet w1 ((k.data ++ contStrL s).drop k1.data.length)
         else litObj t (k.data ++ contStrL s)) from rfl]
    rcases List.mem_cons.mp hm with hh | hh
    · simp only [Prod.mk.injEq] at hh
      obtain ⟨hk1, hw1⟩ := hh
      subst hk1
      subst hw1
      cases s with
      | nil =>
        rw [if_pos (by simp [contStrL])]
        exact (literalGet_nil _).symm
      | cons sg s' =>
        cases sg with
        | key k2 =>
          rw [show contStrL (Seg.key k2 :: s') = '.' :: (k2.data ++ contStrL s') from rfl]
          rw [if_neg append_cons_ne_self, if_pos (prefB_self_cons _ _ _), drop_sep]
          rfl
        | idx i =>
          rw [show contStrL (Seg.idx i :: s') = '[' :: (natStr i ++ ']' :: contStrL s')
            from rfl]
          rw [if_neg append_cons_ne_self,
            if_neg (prefB_self_cons_ne _ _ (by decide)),
            if_pos (prefB_self_cons _ _ _), List.drop_left]
          rfl
    · rw [List.map_cons, List.nodup_cons] at hnd
      have hne : k1 ≠ k := by
        intro he
        exact hnd.1 (he ▸ List.mem_map.mpr ⟨(k, w'), hh, rfl⟩)
      have hg1 : GoodKey k1 := hgk (k1, w1) (List.mem_cons_self _ _)
      have hgK : GoodKey k := hgk (k, w') (List.mem_cons_of_mem _ hh)
      rw [if_neg (keys_nexact hg1 hgK hne s),
        if_neg (keys_nopref hg1 hgK hne (Or.inl rfl) s),
        if_neg (keys_nopref hg1 hgK hne (Or.inr rfl) s)]
      exact ih hnd.2 (fun kw hkw => hgk kw (List.mem_cons_of_mem _ hkw)) k w' hh s

theorem subAt_good {b : List Seg} {v u : Value} (h : SubAt b v u) (hg : Good v) : Good u := by
  induction h with
  | refl => exact hg
  | key hmem hsub ih => exact ih ((good_obj hg).2.2 _ hmem)
  | idx hi hsub ih =>
    rename_i xs i w _ _
    exact ih (good_arr hg w (mem_of_idx xs i w hi))

theorem subAt_keys {b : List Seg} {v u : Value} (h : SubAt b v u) (hg : Good v) :
    GoodAddr b := by
  induction h with
  | refl => intro k hk; simp at hk
  | key hmem hsub ih =>
    rename_i fs k w _ _
    intro k0 hk0
    rcases List.mem_cons.mp hk0 with he | ht
    · cases he
      exact (good_obj hg).2.1 (k, w) hmem
    · exact ih ((good_obj hg).2.2 _ hmem) k0 ht
  | idx hi hsub ih =>
    rename_i xs i w _ _
    intro k0 hk0
    rcases List.mem_cons.mp hk0 with he | ht
    · cases he
    · exact ih (good_arr hg w (mem_of_idx xs i w hi)) k0 ht

theorem subAt_lget {b : List Seg} {v u : Value} (h : SubAt b v u) (hg : Good v)
    (hb : AllKeys b) : lget v (addrStrL b) = some u := by
  induction h with
  | refl => exact lget_nil _
  | key hmem hsub ih =>
    rename_i fs k w _ _
    obtain ⟨hnd, hgk, hgw⟩ := good_obj hg
    rw [show addrStrL (Seg.key k :: _) = k.data ++ contStrL _ from rfl,
      lget_key_step (hgk (k, w) hmem) _, lgetObj_lookup hnd hmem]
    exact ih (hgw _ hmem) (fun s hs => hb s (List.mem_cons_of_mem _ hs))
  | idx hi hsub ih =>
    exact absurd (hb _ (List.mem_cons_self _ _)) (by simp [isKeySeg])

theorem subAt_litGet {b : List Seg} {v u : Value} (h : SubAt b v u) (hg : Good v)
    (hb : AllKeys b) : literalGet v (addrStrL b) = some u := by
  induction h with
  | refl => exact literalGet_nil _
  | key hmem hsub ih =>
    rename_i fs k w uu bb
    obtain ⟨hnd, hgk, hgw⟩ := good_obj hg
    have hGk : GoodKey k := hgk (k, w) hmem
    have h1 : literalGet (.vobj fs) (k.data ++ contStrL bb) =
        litObj fs (k.data ++ contStrL bb) := by
      cases hkd : k.data with
      | nil => exact absurd hkd hGk.1
      | cons c p => rfl
    rw [show addrStrL (Seg.key k :: bb) = k.data ++ contStrL bb from rfl, h1,
      litObj_step fs hnd hgk k w hmem bb]
    exact ih (hgw _ hmem) (fun s hs => hb s (List.mem_cons_of_mem _ hs))
  | idx hi hsub ih =>
    exact absurd (hb _ (List.mem_cons_self _ _)) (by simp [isKeySeg])

theorem subAt_flat {b : List Seg} {v u : Value} (h : SubAt b v u) :
    ∀ (t : List Seg) (w : Value), (t, w) ∈ flatAddrs u → (b ++ t, w) ∈ flatAddrs v := by
  induction h with
  | refl => intro t w hw; simpa using hw
  | key hmem hsub ih =>
    rename_i fs k wmid _ _
    intro t w hw
    rw [List.cons_append]
    cases fs with
    | nil => simp at hmem
    | cons f t2 =>
      rw [show flatAddrs (.vobj (f :: t2)) = flatAddrsFields (f :: t2) from rfl,
        flatFields_mem]
      exact ⟨k, wmid, hmem, _ ++ t, ih t w hw, rfl⟩
  | idx hi hsub ih =>
    rename_i xs i wmid _ _
    intro t w hw
    rw [List.cons_append]
    cases xs with
    | nil => simp at hi
    | cons x t2 =>
      rw [show flatAddrs (.varr (x :: t2)) = flatAddrsElems 0 (x :: t2) from rfl,
        flatElems_mem]
      exact ⟨i, wmid, hi, _ ++ t, ih t w hw, by rw [Nat.zero_add]⟩

theorem flat_decomp (b : List Seg) : ∀ (v : Value) (t : List Seg) (w : Value),
    (b ++ t, w) ∈ flatAddrs v → ∃ u, SubAt b v u ∧ (t, w) ∈ flatAddrs u := by
  induction b with
  | nil => exact fun v t w h => ⟨v, .refl v, by simpa using h⟩
  | cons s b' ih =>
    intro v t w h
    rw [List.cons_append] at h
    cases s with
    | key k =>
      obtain ⟨fs, rfl, w', hk, hm⟩ := flat_key_mem h
      obtain ⟨u, hsub, hmem⟩ := ih w' t w hm
      exact ⟨u, .key hk hsub, hmem⟩
    | idx i =>
      obtain ⟨xs, rfl, w', hi, hm⟩ := flat_idx_mem h
      obtain ⟨u, hsub, hmem⟩ := ih w' t w hm
      exact ⟨u, .idx hi hsub, hmem⟩

theorem brack_contStr : ∀ (a : List Seg) (i : Nat), Seg.idx i ∈ a → '[' ∈ contStrL a := by
  intro a
  induction a with
  | nil => intro i hi; simp at hi
  | cons s t ih =>
    intro i hi
    cases s with
    | key k =>
      have ht : Seg.idx i ∈ t := by
        rcases List.mem_cons.mp hi with he | he
        · cases he
        · exact he
      rw [show contStrL (Seg.key k :: t) = '.' :: (k.data ++ contStrL t) from rfl]
      exact List.mem_cons_of_mem _ (List.mem_append_right _ (ih i ht))
    | idx j =>
      rw [show contStrL (Seg.idx j :: t) = '[' :: (natStr j ++ ']' :: contStrL t) from rfl]
      exact List.mem_cons_self _ _

theorem brack_addrStr (a : List Seg) (i : Nat) (h : Seg.idx i ∈ a) : '[' ∈ addrStrL a := by
  cases a with
  | nil => simp at h
  | cons s t =>
    cases s with
    | key k =>
      have ht : Seg.idx i ∈ t := by
        rcases List.mem_cons.mp h with he | he
        · cases he
        · exact he
      rw [show addrStrL (Seg.key k :: t) = k.data ++ contStrL t from rfl]
      exact List.mem_append_right _ (brack_contStr t i ht)
    | idx j =>
      rw [show addrStrL (Seg.idx j :: t) = '[' :: (natStr j ++ ']' :: contStrL t) from rfl]
      exact List.mem_cons_self _ _

theorem hasBrack_of_mem {l : List Char} (h : '[' ∈ l) : hasBrack l = true := by
  unfold hasBrack
  rw [List.any_eq_true]
  exact ⟨'[', h, by simp⟩

theorem hasBrack_false_allKeys {a : List Seg} (h : hasBrack (addrStrL a) = false) :
    AllKeys a := by
  intro s hs
  cases s with
  | key k => rfl
  | idx i =>
    rw [hasBrack_of_mem (brack_addrStr a i hs)] at h
    cases h

theorem contStr_nobrack : ∀ (b : List Seg), AllKeys b → GoodAddr b → '[' ∉ contStrL b := by
  intro b
  induction b with
  | nil => intro _ _ h; simp [contStrL] at h
  | cons s t ih =>
    intro hall hgd hm
    cases s with
    | key k =>
      rw [show contStrL (Seg.key k :: t) = '.' :: (k.data ++ contStrL t) from rfl] at hm
      rcases List.mem_cons.mp hm with he | he
      · cases he
      · rcases List.mem_append.mp he with hk | ht
        · exact ((hgd k (List.mem_cons_self _ _)).2 '[' hk).2.1 rfl
        · exact ih (fun x hx => hall x (List.mem_cons_of_mem _ hx))
            (fun x hx => hgd x (List.mem_cons_of_mem _ hx)) ht
    | idx i => exact absurd (hall _ (List.mem_cons_self _ _)) (by simp [isKeySeg])

theorem addrStr_nobrack {b : List Seg} (hall : AllKeys b) (hgd : GoodAddr b) :
    '[' ∉ addrStrL b := by
  cases b with
  | nil => simp [addrStrL]
  | cons s t =>
    cases s with
    | key k =>
      rw [show addrStrL (Seg.key k :: t) = k.data ++ contStrL t from rfl]
      intro hm
      rcases List.mem_append.mp hm with hk | ht
      · exact ((hgd k (List.mem_cons_self _ _)).2 '[' hk).2.1 rfl
      · exact contStr_nobrack t (fun x hx => hall x (List.mem_cons_of_mem _ hx))
          (fun x hx => hgd x (List.mem_cons_of_mem _ hx)) ht
    | idx i => exact absurd (hall _ (List.mem_cons_self _ _)) (by simp [isKeySeg])

theorem hasBrack_of_nomem {l : List Char} (h : '[' ∉ l) : hasBrack l = false := by
  unfold hasBrack
  rw [List.any_eq_false]
  intro c hc
  simp only [decide_eq_true_eq]
  intro he
  exact h (he ▸ hc)

theorem bracketPre_of_nobrack : ∀ (l : List Char), '[' ∉ l → bracketPreL l = l := by
  intro l
  induction l with
  | nil => intro _; rfl
  | cons c t ih =>
    intro h
    have hc : c ≠ '[' := fun he => h (by rw [he]; exact List.mem_cons_self _ _)
    unfold bracketPreL at ih ⊢
    rw [List.takeWhile_cons, if_pos (by simp [hc])]
    rw [ih (fun hm => h (List.mem_cons_of_mem _ hm))]

theorem bracketPre_split {x : List Char} (h : '[' ∉ x) (r : List Char) :
    bracketPreL (x ++ '[' :: r) = x := by
  unfold bracketPreL
  rw [takeWhile_app _ x ('[' :: r) (fun c hc => by
    simp only [decide_eq_true_eq]
    intro he
    exact h (he ▸ hc))]
  rw [List.takeWhile_cons, if_neg (by simp)]
  simp

theorem emit_collapse (v : Value) (vp : String) (es : List Value)
    (hbr : hasBrack vp.data = true)
    (hlit : literalGet v (bracketPreL vp.data) = some (.varr es))
    (hall : es.all isStrVal = true) (w : Value) (hd : lget v vp.data = some w) :
    emit v vp = { name := String.mk (bracketPreL vp.data), value := some (.varr es),
                  type := some "array", schema := some true } := by
  simp only [emit, hd, hbr, hlit, hall]
  simp

theorem emit_nocollapse (v : Value) (vp : String) (w : Value) (hd : lget v vp.data = some w)
    (hnc : hasBrack vp.data = false ∨
      ∀ es, literalGet v (bracketPreL vp.data) = some (.varr es) → es.all isStrVal = false) :
    emit v vp = { name := vp, value := some (nilMap w), type := some (typeTag w),
                  schema := some true } := by
  simp only [emit]
  rw [hd]
  rcases hnc with hbr | hlit
  · rw [hbr]
    cases w <;> rfl
  · by_cases hbr : hasBrack vp.data = true
    · rw [hbr]
      rcases hu : literalGet v (bracketPreL vp.data) with _ | u
      · cases w <;> rfl
      · cases u with
        | varr es =>
          have h2 := hlit es hu
          cases w <;> simp [h2, nilMap, typeTag, typeOf, typeOfOpt]
        | vnull => cases w <;> rfl
        | vstr s => cases w <;> rfl
        | vnum n => cases w <;> rfl
        | vbool b => cases w <;> rfl
        | vobj fs => cases w <;> rfl
    · rw [Bool.not_eq_true] at hbr
      rw [hbr]
      cases w <;> rfl

theorem emit_split (v : Value) (vp : String) (w : Value) (hd : lget v vp.data = some w) :
    (emit v vp = { name := vp, value := some (nilMap w), type := some (typeTag w),
                   schema := some true } ∧
      (hasBrack vp.data = false ∨
        ∀ es, literalGet v (bracketPreL vp.data) = some (.varr es) →
          es.all isStrVal = false))
    ∨ (∃ es, hasBrack vp.data = true ∧
        literalGet v (bracketPreL vp.data) = some (.varr es) ∧
        es.all isStrVal = true ∧
        emit v vp = { name := String.mk (bracketPreL vp.data), value := some (.varr es),
                      type := some "array", schema := some true }) := by
  by_cases hbr : hasBrack vp.data = true
  · rcases hu : literalGet v (bracketPreL vp.data) with _ | u
    · exact Or.inl ⟨emit_nocollapse v vp w hd
        (Or.inr fun es' h' => by rw [hu] at h'; cases h'),
        Or.inr fun es' h' => by cases h'⟩
    · cases u with
      | varr es =>
        by_cases hall : es.all isStrVal = true
        · exact Or.inr ⟨es, hbr, rfl, hall, emit_collapse v vp es hbr hu hall w hd⟩
        · rw [Bool.not_eq_true] at hall
          have hfn : ∀ es', literalGet v (bracketPreL vp.data) = some (.varr es') →
              es'.all isStrVal = false := by
            intro es' h'
            rw [hu] at h'
            simp only [Option.some.injEq, Value.varr.injEq] at h'
            rw [← h']
            exact hall
          refine Or.inl ⟨emit_nocollapse v vp w hd (Or.inr hfn), Or.inr ?_⟩
          intro es' h'
          simp only [Option.some.injEq, Value.varr.injEq] at h'
          rw [← h']
          exact hall
      | vnull =>
        exact Or.inl ⟨emit_nocollapse v vp w hd
          (Or.inr fun es' h' => by rw [hu] at h'; simp at h'),
          Or.inr fun es' h' => by simp at h'⟩
      | vstr s =>
        exact Or.inl ⟨emit_nocollapse v vp w hd
          (Or.inr fun es' h' => by rw [hu] at h'; simp at h'),
          Or.inr fun es' h' => by simp at h'⟩
      | vnum n =>
        exact Or.inl ⟨emit_nocollapse v vp w hd
          (Or.inr fun es' h' => by rw [hu] at h'; simp at h'),
          Or.inr fun es' h' => by simp at h'⟩
      | vbool b =>
        exact Or.inl ⟨emit_nocollapse v vp w hd
          (Or.inr fun es' h' => by rw [hu] at h'; simp at h'),
          Or.inr fun es' h' => by simp at h'⟩
      | vobj fs =>
        exact Or.inl ⟨emit_nocollapse v vp w hd
          (Or.inr fun es' h' => by rw [hu] at h'; simp at h'),
          Or.inr fun es' h' => by simp at h'⟩
  · rw [Bool.not_eq_true] at hbr
    exact Or.inl ⟨emit_nocollapse v vp w hd (Or.inl hbr), Or.inl hbr⟩

theorem mk_data (l : List Char) : (String.mk l).data = l := rfl

theorem isStrVal_vstr {e : Value} (h : isStrVal e = true) : ∃ s, e = .vstr s := by
  cases e <;> simp [isStrVal] at h ⊢

theorem addrStr_append_idx (b : List Seg) (i : Nat) (t : List Seg) :
    addrStrL (b ++ Seg.idx i :: t) = addrStrL b ++ contStrL (Seg.idx i :: t) := by
  cases b with
  | nil => rfl
  | cons s b' => exact addrStr_append (s :: b') (Seg.idx i :: t) (by simp)

theorem takeWhile_subset {p : Seg → Bool} :
    ∀ (l : List Seg) (x : Seg), x ∈ l.takeWhile p → x ∈ l := by
  intro l
  induction l with
  | nil => intro x h; simp at h
  | cons y t ih =>
    intro x h
    rw [List.takeWhile_cons] at h
    by_cases hp : p y = true
    · rw [if_pos hp] at h
      rcases List.mem_cons.mp h with he | ht
      · rw [he]; exact List.mem_cons_self _ _
      · exact List.mem_cons_of_mem _ (ih x ht)
    · rw [if_neg hp] at h
      simp at h

theorem takeWhile_pred {p : Seg → Bool} :
    ∀ (l : List Seg) (x : Seg), x ∈ l.takeWhile p → p x = true := by
  intro l
  induction l with
  | nil => intro x h; simp at h
  | cons y t ih =>
    intro x h
    rw [List.takeWhile_cons] at h
    by_cases hp : p y = true
    · rw [if_pos hp] at h
      rcases List.mem_cons.mp h with he | ht
      · rw [he]; exact hp
      · exact ih x ht
    · rw [if_neg hp] at h
      simp at h

theorem dropWhile_head_not {p : Seg → Bool} :
    ∀ (l : List Seg) {x : Seg} {xs : List Seg}, l.dropWhile p = x :: xs → p x = false := by
  intro l
  induction l with
  | nil => intro x xs h; simp at h
  | cons y t ih =>
    intro x xs h
    rw [List.dropWhile_cons] at h
    by_cases hp : p y = true
    · rw [if_pos hp] at h
      exact ih h
    · rw [if_neg hp] at h
      rw [Bool.not_eq_true] at hp
      rcases List.cons.injEq .. ▸ h with ⟨he, _⟩
      rw [← he]
      exact hp

theorem mem_of_hasBrack {l : List Char} (h : hasBrack l = true) : '[' ∈ l := by
  unfold hasBrack at h
  rw [List.any_eq_true] at h
  obtain ⟨c, hc, he⟩ := h
  simp only [decide_eq_true_eq] at he
  rw [← he]
  exact hc

theorem bracketPre_nobrack (l : List Char) : '[' ∉ bracketPreL l := by
  intro h
  unfold bracketPreL at h
  have := List.mem_takeWhile_imp h
  simp at this

theorem prefB_brack_mem {x l : List Char} (h : prefB (x ++ ['[']) l = true) : '[' ∈ l := by
  obtain ⟨u, hu⟩ := (prefB_iff _ _).mp h
  rw [hu]
  exact List.mem_append_left _ (List.mem_append_right _ (List.mem_cons_self _ _))

theorem keys_mem (v : Value) (vp : String) :
    vp ∈ (dotted v).map Prod.fst ↔
      ∃ a w, (a, w) ∈ flatAddrs v ∧ vp = String.mk (addrStrL a) := by
  unfold dotted
  rw [List.map_map]
  constructor
  · intro h
    obtain ⟨⟨a, w⟩, hm, he⟩ := List.mem_map.mp h
    exact ⟨a, w, hm, he.symm⟩
  · rintro ⟨a, w, hm, rfl⟩
    exact List.mem_map.mpr ⟨(a, w), hm, rfl⟩

theorem flat_nobrack_lit (v : Value) (hg : Good v) {a : List Seg} {w : Value}
    (ha : (a, w) ∈ flatAddrs v) (hbf : hasBrack (addrStrL a) = false) :
    literalGet v (addrStrL a) = some w ∧ lget v (addrStrL a) = some w := by
  have hall : AllKeys a := hasBrack_false_allKeys hbf
  obtain ⟨u, hsub, hmem⟩ := flat_decomp a v [] w (by simpa using ha)
  have hw : w = u := flat_nil_mem hmem
  rw [hw]
  exact ⟨subAt_litGet hsub hg hall, subAt_lget hsub hg hall⟩

theorem flat_brack (v : Value) (hg : Good v) {a : List Seg} {w : Value}
    (ha : (a, w) ∈ flatAddrs v) (hbr : hasBrack (addrStrL a) = true) :
    ∃ b i t xs, a = b ++ Seg.idx i :: t ∧ AllKeys b ∧
      bracketPreL (addrStrL a) = addrStrL b ∧
      literalGet v (addrStrL b) = some (.varr xs) ∧
      ∃ x, xs[i]? = some x ∧ (t, w) ∈ flatAddrs x := by
  have hsplit : a.takeWhile isKeySeg ++ a.dropWhile isKeySeg = a :=
    List.takeWhile_append_dropWhile isKeySeg a
  have hAllb : AllKeys (a.takeWhile isKeySeg) := fun s hs => takeWhile_pred a s hs
  cases hd : a.dropWhile isKeySeg with
  | nil =>
    exfalso
    have haK : AllKeys a := by
      intro s hs
      rw [← hsplit, hd, List.append_nil] at hs
      exact takeWhile_pred a s hs
    obtain ⟨u, hsub, _⟩ := flat_decomp a v [] w (by simpa using ha)
    exact addrStr_nobrack haK (subAt_keys hsub hg) (mem_of_hasBrack hbr)
  | cons s t =>
    have hs : isKeySeg s = false := dropWhile_head_not a hd
    cases s with
    | key k => simp [isKeySeg] at hs
    | idx i =>
      have haeq : a = a.takeWhile isKeySeg ++ Seg.idx i :: t := by
        have h2 := hsplit.symm
        rw [hd] at h2
        exact h2
      obtain ⟨u, hsub, hmem⟩ := flat_decomp (a.takeWhile isKeySeg) v (Seg.idx i :: t) w
        (by rw [← haeq]; exact ha)
      obtain ⟨xs, rfl, x, hx, hmx⟩ := flat_idx_mem hmem
      have hgb : GoodAddr (a.takeWhile isKeySeg) := subAt_keys hsub hg
      have hnb : '[' ∉ addrStrL (a.takeWhile isKeySeg) := addrStr_nobrack hAllb hgb
      have hpre : bracketPreL (addrStrL a) = addrStrL (a.takeWhile isKeySeg) := by
        conv_lhs => rw [haeq]
        rw [addrStr_append_idx,
          show contStrL (Seg.idx i :: t) = '[' :: (natStr i ++ ']' :: contStrL t) from rfl]
        exact bracketPre_split hnb _
      exact ⟨a.takeWhile isKeySeg, i, t, xs, haeq, hAllb, hpre, subAt_litGet hsub hg hAllb,
        x, hx, hmx⟩

theorem cvo_mem_of (v : Value) (vp : String) (hm : vp ∈ (dotted v).map Prod.fst)
    (hall : ∀ vp' ∈ (dotted v).map Prod.fst, (emit v vp').name = (emit v vp).name →
      emit v vp' = emit v vp) : emit v vp ∈ createValuesObject v := by
  rw [cvo_eq_emits]
  exact emits_first v _ [] vp hm (by simp) hall

theorem emit_name_eq (v : Value) (hg : Good v) {vp vp' : String}
    (hm : vp ∈ (dotted v).map Prod.fst) (hm' : vp' ∈ (dotted v).map Prod.fst)
    (hname : (emit v vp').name = (emit v vp).name) : emit v vp' = emit v vp := by
  obtain ⟨a, w, ha, rfl⟩ := (keys_mem v vp).mp hm
  obtain ⟨a', w', ha', rfl⟩ := (keys_mem v vp').mp hm'
  have hd : lget v (String.mk (addrStrL a)).data = some w := flat_lget v hg a w ha
  have hd' : lget v (String.mk (addrStrL a')).data = some w' := flat_lget v hg a' w' ha'
  rcases emit_split v (String.mk (addrStrL a)) w hd with ⟨he, hnc⟩ |
      ⟨es, hbr, hlit, hallS, he⟩ <;>
    rcases emit_split v (String.mk (addrStrL a')) w' hd' with ⟨he', hnc'⟩ |
      ⟨es', hbr', hlit', hallS', he'⟩
  · have hn : (emit v (String.mk (addrStrL a))).name = String.mk (addrStrL a) := by rw [he]
    have hn' : (emit v (String.mk (addrStrL a'))).name = String.mk (addrStrL a') := by rw [he']
    rw [hn, hn'] at hname
    rw [hname]
  · have hn : (emit v (String.mk (addrStrL a))).name = String.mk (addrStrL a) := by rw [he]
    have hn' : (emit v (String.mk (addrStrL a'))).name =
        String.mk (bracketPreL (String.mk (addrStrL a')).data) := by rw [he']
    rw [hn, hn'] at hname
    have hstr_eq : bracketPreL (addrStrL a') = addrStrL a := congrArg String.data hname
    have hbf : hasBrack (addrStrL a) = false := by
      cases hx : hasBrack (addrStrL a) with
      | false => rfl
      | true =>
        have hmem := mem_of_hasBrack hx
        rw [← hstr_eq] at hmem
        exact absurd hmem (bracketPre_nobrack _)
    obtain ⟨hlita, _⟩ := flat_nobrack_lit v hg ha hbf
    have hlit2 : literalGet v (addrStrL a) = some (.varr es') := by
      have h0 : literalGet v (bracketPreL (addrStrL a')) = some (.varr es') := hlit'
      rw [hstr_eq] at h0
      exact h0
    have hw : w = .varr es' := by
      rw [hlita] at hlit2
      exact Option.some.inj hlit2
    subst hw
    rw [he, he', hname]
    rfl
  · have hn : (emit v (String.mk (addrStrL a))).name =
        String.mk (bracketPreL (String.mk (addrStrL a)).data) := by rw [he]
    have hn' : (emit v (String.mk (addrStrL a'))).name = String.mk (addrStrL a') := by rw [he']
    rw [hn, hn'] at hname
    have hstr_eq : addrStrL a' = bracketPreL (addrStrL a) := congrArg String.data hname
    have hbf' : hasBrack (addrStrL a') = false := by
      cases hx : hasBrack (addrStrL a') with
      | false => rfl
      | true =>
        have hmem := mem_of_hasBrack hx
        rw [hstr_eq] at hmem
        exact absurd hmem (bracketPre_nobrack _)
    obtain ⟨hlita', _⟩ := flat_nobrack_lit v hg ha' hbf'
    have hlit2 : literalGet v (addrStrL a') = some (.varr es) := by
      have h0 : literalGet v (bracketPreL (addrStrL a)) = some (.varr es) := hlit
      rw [← hstr_eq] at h0
      exact h0
    have hw : w' = .varr es := by
      rw [hlita'] at hlit2
      exact Option.some.inj hlit2
    subst hw
    rw [he, he', hname]
    rfl
  · have hn : (emit v (String.mk (addrStrL a))).name =
        String.mk (bracketPreL (String.mk (addrStrL a)).data) := by rw [he]
    have hn' : (emit v (String.mk (addrStrL a'))).name =
        String.mk (bracketPreL (String.mk (addrStrL a')).data) := by rw [he']
    rw [hn, hn'] at hname
    have hstr_eq : bracketPreL (addrStrL a') = bracketPreL (addrStrL a) :=
      congrArg String.data hname
    have h1 : literalGet v (bracketPreL (addrStrL a')) = some (.varr es') := hlit'
    have h2 : literalGet v (bracketPreL (addrStrL a)) = some (.varr es) := hlit
    rw [hstr_eq, h2] at h1
    simp only [Option.some.injEq, Value.varr.injEq] at h1
    subst h1
    rw [he, he', hname]

theorem flat_cvo_mem (v : Value) (hg : Good v) {a : List Seg} {w : Value}
    (ha : (a, w) ∈ flatAddrs v) :
    emit v (String.mk (addrStrL a)) ∈ createValuesObject v :=
  cvo_mem_of v _ ((keys_mem v _).mpr ⟨a, w, ha, rfl⟩)
    (fun _ hm' hname => emit_name_eq v hg ((keys_mem v _).mpr ⟨a, w, ha, rfl⟩) hm' hname)

/-- C4 (amended): every `null` leaf of a well-formed tree yields a Parameter
whose rendered value is exactly the string `"nil"`, but its `type` is
`"object"` — JavaScript `typeof null` computed on line 310 before the nil
substitution of lines 331–333 — not a type corresponding to the rendered
`nil` string. -/
theorem claim_C4 (v : Value) (hg : Good v) (a : List Seg)
    (ha : (a, Value.vnull) ∈ flatAddrs v) :
    ∃ p ∈ createValuesObject v, p.name = String.mk (addrStrL a) ∧
      p.value = some (.vstr "nil") ∧ p.type = some "object" ∧ p.schema = some true := by
  refine ⟨emit v (String.mk (addrStrL a)), flat_cvo_mem v hg ha, ?_⟩
  have hd : lget v (String.mk (addrStrL a)).data = some .vnull := flat_lget v hg a _ ha
  rcases emit_split v (String.mk (addrStrL a)) .vnull hd with ⟨he, _⟩ |
      ⟨es, hbr, hlit, hallS, he⟩
  · rw [he]
    exact ⟨rfl, rfl, rfl, rfl⟩
  · exfalso
    have hbr2 : hasBrack (addrStrL a) = true := hbr
    obtain ⟨b, i, t, xs, haeq, hbAll, hpre, hlitb, x, hx, hmemx⟩ := flat_brack v hg ha hbr2
    have hlit2 : literalGet v (addrStrL b) = some (.varr es) := by
      have h0 : literalGet v (bracketPreL (addrStrL a)) = some (.varr es) := hlit
      rw [hpre] at h0
      exact h0
    rw [hlitb] at hlit2
    simp only [Option.some.injEq, Value.varr.injEq] at hlit2
    have hxmem : x ∈ es := by
      rw [hlit2] at hx
      exact mem_of_idx es i x hx
    have hxs : isStrVal x = false := by
      cases t with
      | nil =>
        have hxv : Value.vnull = x := flat_nil_mem hmemx
        rw [← hxv]
        rfl
      | cons s t' =>
        cases s with
        | key k =>
          obtain ⟨fs, rfl, -⟩ := flat_key_mem hmemx
          rfl
        | idx j =>
          obtain ⟨ys, rfl, -⟩ := flat_idx_mem hmemx
          rfl
    have := List.all_eq_true.mp hallS x hxmem
    rw [hxs] at this
    cases this

/-- C4 is false in its typing half at a concrete input: the single `null`
leaf becomes the string `"nil"`, yet its type tag is `"object"` (JavaScript
`typeof null`), not the string type of the rendered `nil` token. -/
theorem claim_C4_counterexample :
    createValuesObject (.vobj [("a", .vnull)]) =
      [{ name := "a", value := some (.vstr "nil"), type := some "object",
         schema := some true }] ∧
    typeOf (.vstr "nil") = "string" ∧ ("object" : String) ≠ "string" :=
  ⟨rfl, rfl, by decide⟩

theorem claim_C4_witness :
    ∃ p ∈ createValuesObject (Value.vobj [("a", Value.vnull)]),
      p.name = String.mk (addrStrL [Seg.key "a"]) ∧
      p.value = some (Value.vstr "nil") ∧ p.type = some "object" ∧ p.schema = some true :=
  claim_C4 (Value.vobj [("a", Value.vnull)])
    (Good.vobj _ (by simp)
      (fun kw hkw => by
        rw [List.mem_singleton] at hkw
        rw [hkw]
        exact ⟨by decide, by decide⟩)
      (fun kw hkw => by
        rw [List.mem_singleton] at hkw
        rw [hkw]
        exact Good.vnull))
    [Seg.key "a"]
    (by
      rw [show flatAddrs (Value.vobj [("a", Value.vnull)]) =
        [([Seg.key "a"], Value.vnull)] from rfl]
      exact List.mem_singleton.mpr rfl)

/-- C2 (amended): the plain-string-array collapse applies only to arrays whose
dotted path contains no bracket at all, i.e. arrays sitting at an all-key
address (`utils.getArrayPrefix` truncates at the *first* `[` of the path).
For such an array of strings the flattener emits exactly one Parameter — named
by the bracket-free path, valued with the whole ordered array, typed
`"array"` — and no parameter whose name extends that path with an index.  If
some element is not a string, no collapse happens and every leaf below the
array yields its own Parameter under its full bracketed path. -/
theorem claim_C2 (v : Value) (hg : Good v) (b : List Seg) (hb : AllKeys b)
    (es : List Value) (hsub : SubAt b v (.varr es)) (hne : es ≠ []) :
    (es.all isStrVal = true →
      (∃ p ∈ createValuesObject v,
        p.name = String.mk (addrStrL b) ∧ p.value = some (.varr es) ∧
        p.type = some "array" ∧ p.schema = some true) ∧
      ((createValuesObject v).map (fun p => p.name)).Nodup ∧
      ∀ p ∈ createValuesObject v, ¬ prefB (addrStrL b ++ ['[']) p.name.data = true) ∧
    (es.all isStrVal = false →
      ∀ t w, (t, w) ∈ flatAddrs (.varr es) →
        ∃ p ∈ createValuesObject v,
          p.name = String.mk (addrStrL (b ++ t)) ∧ p.value = some (nilMap w) ∧
          p.type = some (typeTag w) ∧ p.schema = some true) := by
  obtain ⟨e0, es0, rfl⟩ := List.exists_cons_of_ne_nil hne
  have hgb : GoodAddr b := subAt_keys hsub hg
  have hnb : '[' ∉ addrStrL b := addrStr_nobrack hb hgb
  have hlitb : literalGet v (addrStrL b) = some (.varr (e0 :: es0)) := subAt_litGet hsub hg hb
  constructor
  · intro hstr
    obtain ⟨s0, he0⟩ := isStrVal_vstr (List.all_eq_true.mp hstr e0 (List.mem_cons_self _ _))
    have hmem0 : ([Seg.idx 0], e0) ∈ flatAddrs (.varr (e0 :: es0)) := by
      rw [show flatAddrs (.varr (e0 :: es0)) = flatAddrsElems 0 (e0 :: es0) from rfl,
        flatElems_mem]
      refine ⟨0, e0, by simp, [], ?_, by simp⟩
      rw [he0, show flatAddrs (Value.vstr s0) = [([], Value.vstr s0)] from rfl]
      exact List.mem_singleton.mpr rfl
    have ha0 : (b ++ [Seg.idx 0], e0) ∈ flatAddrs v := subAt_flat hsub _ _ hmem0
    have hd0 : lget v (String.mk (addrStrL (b ++ [Seg.idx 0]))).data = some e0 :=
      flat_lget v hg _ _ ha0
    have haeq : addrStrL (b ++ [Seg.idx 0]) =
        addrStrL b ++ '[' :: (natStr 0 ++ ']' :: contStrL []) := by
      rw [addrStr_append_idx]
      rfl
    have hbr0 : hasBrack (addrStrL (b ++ [Seg.idx 0])) = true := by
      refine hasBrack_of_mem ?_
      rw [haeq]
      exact List.mem_append_right _ (List.mem_cons_self _ _)
    have hpre0 : bracketPreL (addrStrL (b ++ [Seg.idx 0])) = addrStrL b := by
      rw [haeq]
      exact bracketPre_split hnb _
    have hlit0 : literalGet v
        (bracketPreL (String.mk (addrStrL (b ++ [Seg.idx 0]))).data) =
        some (.varr (e0 :: es0)) := by
      show literalGet v (bracketPreL (addrStrL (b ++ [Seg.idx 0]))) = _
      rw [hpre0]
      exact hlitb
    have he := emit_collapse v (String.mk (addrStrL (b ++ [Seg.idx 0]))) (e0 :: es0)
      hbr0 hlit0 hstr e0 hd0
    refine ⟨⟨emit v (String.mk (addrStrL (b ++ [Seg.idx 0]))), flat_cvo_mem v hg ha0,
      ?_, ?_, ?_, ?_⟩, cvo_names_nodup v, ?_⟩
    · rw [he]
      exact congrArg String.mk hpre0
    · rw [he]
    · rw [he]
    · rw [he]
    · intro p hp hpref
      rw [cvo_eq_emits] at hp
      obtain ⟨⟨vp', hvp', rfl⟩, -⟩ := emits_mem v _ [] p hp
      obtain ⟨a', w', ha', rfl⟩ := (keys_mem v vp').mp hvp'
      have hd' : lget v (String.mk (addrStrL a')).data = some w' := flat_lget v hg a' w' ha'
      rcases emit_split v _ w' hd' with ⟨he', hnc'⟩ | ⟨es2, hbr', hlit', hallS', he'⟩
      · rw [he'] at hpref
        obtain ⟨u, hu⟩ := (prefB_iff _ _).mp hpref
        have hu2 : addrStrL a' = addrStrL b ++ '[' :: u := by
          have hu3 : addrStrL a' = (addrStrL b ++ ['[']) ++ u := hu
          rw [List.append_assoc] at hu3
          exact hu3
        have hbr2 : hasBrack (addrStrL a') = true := by
          refine hasBrack_of_mem ?_
          rw [hu2]
          exact List.mem_append_right _ (List.mem_cons_self _ _)
        have hpre2 : bracketPreL (addrStrL a') = addrStrL b := by
          rw [hu2]
          exact bracketPre_split hnb u
        rcases hnc' with hbf' | hfn
        · have hbf2 : hasBrack (addrStrL a') = false := hbf'
          rw [hbr2] at hbf2
          cases hbf2
        · have hlit3 : literalGet v (bracketPreL (String.mk (addrStrL a')).data) =
              some (.varr (e0 :: es0)) := by
            show literalGet v (bracketPreL (addrStrL a')) = _
            rw [hpre2]
            exact hlitb
          have hfalse := hfn (e0 :: es0) hlit3
          rw [hstr] at hfalse
          cases hfalse
      · rw [he'] at hpref
        have hmem2 : '[' ∈ bracketPreL (addrStrL a') := prefB_brack_mem hpref
        exact absurd hmem2 (bracketPre_nobrack _)
  · intro hstr2 t w hmem
    have ha' : (b ++ t, w) ∈ flatAddrs v := subAt_flat hsub t w hmem
    have hd' : lget v (String.mk (addrStrL (b ++ t))).data = some w := flat_lget v hg _ _ ha'
    rw [show flatAddrs (.varr (e0 :: es0)) = flatAddrsElems 0 (e0 :: es0) from rfl,
      flatElems_mem] at hmem
    obtain ⟨i, x, hx, t', hmx, rfl⟩ := hmem
    rcases emit_split v (String.mk (addrStrL (b ++ Seg.idx (0 + i) :: t'))) w hd' with
      ⟨he', hnc'⟩ | ⟨es2, hbr', hlit', hallS', he'⟩
    · refine ⟨emit v (String.mk (addrStrL (b ++ Seg.idx (0 + i) :: t'))),
        flat_cvo_mem v hg ha', ?_, ?_, ?_, ?_⟩
      · rw [he']
      · rw [he']
      · rw [he']
      · rw [he']
    · exfalso
      have haeq : addrStrL (b ++ Seg.idx (0 + i) :: t') =
          addrStrL b ++ '[' :: (natStr (0 + i) ++ ']' :: contStrL t') := by
        rw [addrStr_append_idx]
        rfl
      have hpre2 : bracketPreL (addrStrL (b ++ Seg.idx (0 + i) :: t')) = addrStrL b := by
        rw [haeq]
        exact bracketPre_split hnb _
      have hlit3 : literalGet v
          (bracketPreL (String.mk (addrStrL (b ++ Seg.idx (0 + i) :: t'))).data) =
          some (.varr (e0 :: es0)) := by
        show literalGet v (bracketPreL (addrStrL (b ++ Seg.idx (0 + i) :: t'))) = _
        rw [hpre2]
        exact hlitb
      rw [hlit3] at hlit'
      simp only [Option.some.injEq, Value.varr.injEq] at hlit'
      rw [← hlit'] at hallS'
      rw [hstr2] at hallS'
      cases hallS'

/-- C2 is false as stated at a concrete input: the inner array at `a[0].b`
consists only of the string `"x"`, yet the flattener emits the per-element
parameter `a[0].b[0]` holding that string — not one collapsed parameter named
`a[0].b` holding the whole array — because the array prefix is everything
before the *first* `[` of the path (`"a"`), whose value is not a string
array. -/
theorem claim_C2_counterexample :
    createValuesObject (.vobj [("a", .varr [.vobj [("b", .varr [.vstr "x"])]])]) =
      [{ name := "a[0].b[0]", value := some (.vstr "x"), type := some "string",
         schema := some true }] ∧
    [Value.vstr "x"].all isStrVal = true ∧
    ∀ p ∈ createValuesObject (.vobj [("a", .varr [.vobj [("b", .varr [.vstr "x"])]])]),
      p.name ≠ "a[0].b" := by
  refine ⟨rfl, rfl, ?_⟩
  intro p hp
  rw [show createValuesObject (.vobj [("a", .varr [.vobj [("b", .varr [.vstr "x"])]])]) =
    [{ name := "a[0].b[0]", value := some (.vstr "x"), type := some "string",
       schema := some true }] from rfl, List.mem_singleton] at hp
  rw [hp]
  decide

theorem claim_C2_witness :
    (([Value.vstr "x", Value.vstr "y"].all isStrVal = true →
        (∃ p ∈ createValuesObject
            (Value.vobj [("a", Value.varr [Value.vstr "x", Value.vstr "y"])]),
          p.name = String.mk (addrStrL [Seg.key "a"]) ∧
          p.value = some (Value.varr [Value.vstr "x", Value.vstr "y"]) ∧
          p.type = some "array" ∧ p.schema = some true) ∧
        ((createValuesObject
            (Value.vobj [("a", Value.varr [Value.vstr "x", Value.vstr "y"])])).map
          (fun p => p.name)).Nodup ∧
        ∀ p ∈ createValuesObject
            (Value.vobj [("a", Value.varr [Value.vstr "x", Value.vstr "y"])]),
          ¬ prefB (addrStrL [Seg.key "a"] ++ ['[']) p.name.data = true) ∧
      ([Value.vstr "x", Value.vstr "y"].all isStrVal = false →
        ∀ t w, (t, w) ∈ flatAddrs (Value.varr [Value.vstr "x", Value.vstr "y"]) →
          ∃ p ∈ createValuesObject
              (Value.vobj [("a", Value.varr [Value.vstr "x", Value.vstr "y"])]),
            p.name = String.mk (addrStrL ([Seg.key "a"] ++ t)) ∧
            p.value = some (nilMap w) ∧
            p.type = some (typeTag w) ∧ p.schema = some true)) :=
  claim_C2 (Value.vobj [("a", Value.varr [Value.vstr "x", Value.vstr "y"])])
    (Good.vobj _ (by simp)
      (fun kw hkw => by
        rw [List.mem_singleton] at hkw
        rw [hkw]
        exact ⟨by decide, by decide⟩)
      (fun kw hkw => by
        rw [List.mem_singleton] at hkw
        rw [hkw]
        exact Good.varr _ (fun w hw => by
          rcases List.mem_cons.mp hw with rfl | hw2
          · exact Good.vstr _
          · rw [List.mem_singleton] at hw2
            rw [hw2]
            exact Good.vstr _)))
    [Seg.key "a"]
    (fun s hs => by
      rw [List.mem_singleton] at hs
      rw [hs]
      rfl)
    [Value.vstr "x", Value.vstr "y"]
    (SubAt.key (List.mem_singleton.mpr rfl) (SubAt.refl _))
    (by simp)
